import Mathlib

/-!
Verification of the BlackRoad workerd edge workers.

The JavaScript sources (the embedded stripe worker in `workerd.capnp` and
`workers/gateway.js`) are shallowly embedded below.  JavaScript strings are
modelled as `List Char`, so that the `split`/`join` string manipulation done
by the source can be reasoned about with the list lemmas of the library.
External platform collaborators (`crypto.subtle` HMAC, `JSON.parse`, the
outbound `fetch` transport) are taken as function parameters of the
embeddings; everything else is translated directly from the source.
-/

namespace Edge

/-- JavaScript strings, modelled as lists of characters. -/
abbrev Str := List Char

/-- JavaScript truthiness of a string: the empty string is falsy. -/
def jsTruthy (s : Str) : Bool := !s.isEmpty

/-- JavaScript truthiness of a possibly-`undefined` string value. -/
def jsTruthyO : Option Str → Bool
  | none => false
  | some s => jsTruthy s

/-- JavaScript `a || b` for a possibly-undefined string `a` with fallback `b`. -/
def jsOr (a : Option Str) (b : Str) : Str :=
  match a with
  | some s => if jsTruthy s then s else b
  | none => b

/-- JavaScript object assignment `acc[k] = v` on an object represented as an
insertion-ordered association list: an existing key keeps its position and
gets the new value, a new key is appended at the end. -/
def jsSet (acc : List (Str × Option Str)) (k : Str) (v : Option Str) :
    List (Str × Option Str) :=
  match acc with
  | [] => [(k, v)]
  | (k₀, v₀) :: rest => if k₀ = k then (k, v) :: rest else (k₀, v₀) :: jsSet rest k v

/-- JavaScript property read `acc[k]`: `undefined` (`none`) when the key is
absent or was assigned `undefined`. -/
def jsGet (acc : List (Str × Option Str)) (k : Str) : Option Str :=
  match acc.find? (fun p => p.1 = k) with
  | some p => p.2
  | none => none

/-- Decimal digit value of a character. -/
def digitVal (c : Char) : Nat := c.toNat - '0'.toNat

/-- Interpret a list of decimal digits as a natural number. -/
def decDigitsVal (ds : Str) : Nat := ds.foldl (fun n c => n * 10 + digitVal c) 0

/-- Hexadecimal digit value of a character (`0`–`9`, `a`–`f`, `A`–`F`). -/
def hexVal (c : Char) : Nat :=
  if c.isDigit then c.toNat - '0'.toNat
  else if 'a' ≤ c ∧ c ≤ 'f' then c.toNat - 'a'.toNat + 10
  else c.toNat - 'A'.toNat + 10

/-- Characters accepted as hexadecimal digits. -/
def isHexDigit (c : Char) : Bool :=
  c.isDigit || ('a' ≤ c && c ≤ 'f') || ('A' ≤ c && c ≤ 'F')

/-- Interpret a list of hexadecimal digits as a natural number. -/
def hexDigitsVal (ds : Str) : Nat := ds.foldl (fun n c => n * 16 + hexVal c) 0

/-- Model of JavaScript `parseInt(s)` (radix unspecified): skip leading
whitespace, read an optional sign, then either a `0x`/`0X` hexadecimal prefix
or a run of decimal digits; `NaN` (here `none`) when no digit is found. -/
def jsParseInt (s : Str) : Option Int :=
  let body := s.dropWhile Char.isWhitespace
  let core : Str → Option Nat := fun t =>
    match t with
    | '0' :: 'x' :: rest | '0' :: 'X' :: rest =>
      let ds := rest.takeWhile isHexDigit
      if ds.isEmpty then none else some (hexDigitsVal ds)
    | t =>
      let ds := t.takeWhile Char.isDigit
      if ds.isEmpty then none else some (decDigitsVal ds)
  match body with
  | '-' :: rest => (core rest).map (fun n => -(n : Int))
  | '+' :: rest => (core rest).map (fun n => (n : Int))
  | rest => (core rest).map (fun n => (n : Int))

/-! ### Signature verifier (`verifyStripeSignature` in the stripe worker) -/

/-- Errors thrown by `verifyStripeSignature`, one constructor per `throw`
site of the source. -/
inductive VerifyError
  | missingHeader
  | invalidFormat
  | staleTimestamp
  | signatureMismatch
deriving DecidableEq

/-- Header parsing of `verifyStripeSignature`:
`sigHeader.split(',').reduce((acc, part) => { const [k, v] = part.split('=');
acc[k] = v; return acc; }, {})`.  Duplicate keys overwrite the previous value
because `acc` is a JavaScript object. -/
def parseSigHeader (h : Str) : List (Str × Option Str) :=
  (h.splitOn ',').foldl
    (fun acc part =>
      let pieces := part.splitOn '='
      jsSet acc pieces.headI pieces[1]?)
    []

/-- The `signatures` list of `verifyStripeSignature`:
`Object.entries(parts).filter(([k]) => k === 'v1').map(([, v]) => v)`. -/
def sigValues (parts : List (Str × Option Str)) : List (Option Str) :=
  (parts.filter (fun p => p.1 = "v1".data)).map (fun p => p.2)

/-- The tolerance comparison `Math.abs(now - parseInt(timestamp)) > tolerance`
with `tolerance = 300`.  When `parseInt` yields `NaN`, every comparison
against it is false, so the check as a whole is false. -/
def staleCheck (now : Int) (ts : Str) : Bool :=
  match jsParseInt ts with
  | some t => decide (300 < (now - t).natAbs)
  | none => false

/-- `verifyStripeSignature(payload, sigHeader, secret)` from the stripe
worker.  `hmacHex secret msg` stands for the `crypto.subtle` collaborator
computing the lowercase-hex HMAC-SHA256 of `msg` under `secret`; `now` stands
for `Math.floor(Date.now() / 1000)`.  A thrown error is modelled as
`Except.error`. -/
def verifyStripeSignature (hmacHex : Str → Str → Str) (now : Int)
    (payload : Str) (sigHeader : Option Str) (secret : Str) :
    Except VerifyError Unit :=
  match sigHeader with
  | none => .error .missingHeader
  | some h =>
    if !jsTruthy h then .error .missingHeader
    else
      let parts := parseSigHeader h
      let timestamp := jsGet parts "t".data
      let signatures := sigValues parts
      if !jsTruthyO timestamp || signatures.isEmpty then .error .invalidFormat
      else
        let ts := timestamp.getD []
        if staleCheck now ts then .error .staleTimestamp
        else
          let signedPayload := ts ++ '.' :: payload
          let computed := hmacHex secret signedPayload
          if some computed ∈ signatures then .ok () else .error .signatureMismatch

/-! ### Webhook handler (`handleWebhook` in the stripe worker) -/

/-- The fields of a parsed webhook event that the `switch` in `handleWebhook`
reads: `event.type` and the `id`/`customer`/`status` fields of
`event.data.object`. -/
structure StripeEvent where
  type : Str
  objectId : Str
  objectCustomer : Str
  objectStatus : Str
deriving DecidableEq

/-- The event `switch` of `handleWebhook`: each case performs its
`console.log` side effect, returned here as the list of log lines. -/
def dispatchEvent (e : StripeEvent) : List Str :=
  if e.type = "checkout.session.completed".data then
    ["✓ Checkout completed: ".data ++ e.objectId ++ " | customer: ".data ++ e.objectCustomer]
  else if e.type = "customer.subscription.created".data ∨
      e.type = "customer.subscription.updated".data then
    ["✓ Subscription ".data ++ e.type ++ ": ".data ++ e.objectId ++
      " | status: ".data ++ e.objectStatus]
  else if e.type = "customer.subscription.deleted".data then
    ["✓ Subscription cancelled: ".data ++ e.objectId]
  else if e.type = "invoice.payment_failed".data then
    ["✗ Payment failed: ".data ++ e.objectId ++ " | customer: ".data ++ e.objectCustomer]
  else if e.type = "invoice.payment_succeeded".data then
    ["✓ Payment succeeded: ".data ++ e.objectId]
  else
    ["Unhandled event: ".data ++ e.type]

/-- Observable outcome of one `handleWebhook` run: the HTTP status of the
response, whether the response body is the `{received: true}`
acknowledgement, whether `JSON.parse` was invoked on the body, and the
`console.log` side effects of the event switch. -/
structure WebhookResult where
  status : Nat
  acknowledged : Bool
  parseAttempted : Bool
  effects : List Str
deriving DecidableEq

/-- The parse-and-dispatch tail of `handleWebhook`: `JSON.parse(body)`
(`Invalid JSON` → 400), then the event switch, then `{received: true}`. -/
def webhookParse (parseJson : Str → Option StripeEvent) (body : Str) : WebhookResult :=
  match parseJson body with
  | none => { status := 400, acknowledged := false, parseAttempted := true, effects := [] }
  | some e =>
    { status := 200, acknowledged := true, parseAttempted := true,
      effects := dispatchEvent e }

/-- `handleWebhook(request, env)` from the stripe worker.  `parseJson` stands
for the `JSON.parse` collaborator, `webhookSecret` for
`env.STRIPE_WEBHOOK_SECRET` (the empty string models an unset binding, which
is falsy), and `sigHeader` for the `stripe-signature` request header. -/
def handleWebhook (hmacHex : Str → Str → Str) (now : Int)
    (parseJson : Str → Option StripeEvent) (webhookSecret : Str)
    (sigHeader : Option Str) (body : Str) : WebhookResult :=
  if jsTruthy webhookSecret then
    match verifyStripeSignature hmacHex now body sigHeader webhookSecret with
    | .error _ =>
      { status := 400, acknowledged := false, parseAttempted := false, effects := [] }
    | .ok _ => webhookParse parseJson body
  else webhookParse parseJson body

/-! ### Checkout handler (`handleCheckout` in the stripe worker) -/

/-- The deployment bindings of the stripe worker that the handlers read. -/
structure StripeEnv where
  secretKey : Str
  webhookSecret : Str
  allowedOrigin : Str
deriving DecidableEq

/-- The parsed JSON body of a `/checkout` request; `none` models an absent
field. -/
structure CheckoutBody where
  price_id : Option Str
  success_url : Option Str
  cancel_url : Option Str
  customer_email : Option Str
  metadata : List (Str × Str)
deriving DecidableEq

/-- Observable outcome of `handleCheckout` up to the outbound call: the
response status of the validation phase and the list of requests issued to
the payment processor (`stripeRequest` path plus flat parameter object). -/
structure CheckoutResult where
  status : Nat
  stripeCalls : List (Str × List (Str × Str))
deriving DecidableEq

/-- `handleCheckout(request, env)` from the stripe worker, up to the
`stripeRequest` boundary: validates `price_id`, defaults the URLs from the
`Origin` header / `ALLOWED_ORIGIN` / the fixed fallback, and assembles the
parameter object handed to `stripeRequest('POST', '/checkout/sessions', …)`.
A status of 200 records that the outbound call was issued; the upstream
response itself is an external collaborator. -/
def handleCheckout (req : CheckoutBody) (originHeader : Option Str)
    (env : StripeEnv) : CheckoutResult :=
  if !jsTruthyO req.price_id then { status := 400, stripeCalls := [] }
  else
    let origin := jsOr originHeader (jsOr (some env.allowedOrigin)
      "https://blackroad-brand-kit.pages.dev".data)
    let successUrl := jsOr req.success_url
      (origin ++ "/success?session_id={CHECKOUT_SESSION_ID}".data)
    let cancelUrl := jsOr req.cancel_url (origin ++ "/pricing".data)
    let base : List (Str × Str) :=
      [("mode".data, "subscription".data),
       ("line_items[0][price]".data, req.price_id.getD []),
       ("line_items[0][quantity]".data, "1".data),
       ("success_url".data, successUrl),
       ("cancel_url".data, cancelUrl),
       ("automatic_tax[enabled]".data, "true".data),
       ("subscription_data[metadata][source]".data, "blackroad-brand-kit".data)] ++
      req.metadata.map (fun p => ("metadata[".data ++ p.1 ++ "]".data, p.2))
    let params :=
      if jsTruthyO req.customer_email then
        base ++ [("customer_email".data, req.customer_email.getD [])]
      else base
    { status := 200, stripeCalls := [("/checkout/sessions".data, params)] }

/-! ### Prices handler (`handlePrices` in the stripe worker) -/

/-- The fields of an expanded upstream product record that `handlePrices`
reads.  `deleted` models the truthiness of `p.product.deleted`. -/
structure RawProduct where
  id : Str
  name : Str
  description : Str
  metadata : List (Str × Str)
  deleted : Bool
deriving DecidableEq

/-- The `recurring` sub-object of an upstream price. -/
structure RawRecurring where
  interval : Str
  interval_count : Int
deriving DecidableEq

/-- An entry of the upstream `/prices` list; `none` models `null`/absent
fields (`unit_amount`, `recurring`) and an absent or unexpanded parent
product. -/
structure RawPrice where
  id : Str
  unit_amount : Option Int
  currency : Str
  recurring : Option RawRecurring
  product : Option RawProduct
deriving DecidableEq

/-- The reduced product view `{id, name, description, metadata}`. -/
structure ProductView where
  id : Str
  name : Str
  description : Str
  metadata : List (Str × Str)
deriving DecidableEq

/-- The reduced price view returned by `handlePrices`. -/
structure PriceView where
  id : Str
  amount : Option Int
  currency : Str
  interval : Option Str
  interval_count : Option Int
  product : ProductView
deriving DecidableEq

/-- The filter `p => p.product && !p.product.deleted` of `handlePrices`. -/
def keepPrice (p : RawPrice) : Bool :=
  match p.product with
  | none => false
  | some prod => !prod.deleted

/-- The map step of `handlePrices`, producing the reduced view.  The product
accessors run after the filter, so an absent product is never read; `none`
is mapped to an all-empty view only to keep the function total. -/
def toPriceView (p : RawPrice) : PriceView :=
  { id := p.id
    amount := p.unit_amount
    currency := p.currency
    interval := p.recurring.map (fun r => r.interval)
    interval_count := p.recurring.map (fun r => r.interval_count)
    product :=
      match p.product with
      | some prod =>
        { id := prod.id, name := prod.name, description := prod.description,
          metadata := prod.metadata }
      | none => { id := [], name := [], description := [], metadata := [] } }

/-- The sort key `(x.amount || 0)` of the comparator in `handlePrices`. -/
def priceKey (v : PriceView) : Int := v.amount.getD 0

/-- `handlePrices(env)` from the stripe worker, from the upstream price list
to the response payload: filter out prices without a live product, map to
the reduced view, sort ascending by `(amount || 0)` (JavaScript
`Array.prototype.sort` with a comparator is stable, as is `mergeSort`). -/
def handlePrices (raw : List RawPrice) : List PriceView :=
  ((raw.filter keepPrice).map toPriceView).mergeSort
    (fun a b => decide (priceKey a ≤ priceKey b))

/-! ### Stripe worker dispatcher (the `fetch` entry of the stripe worker) -/

/-- The route list of the stripe worker's 404 response body. -/
def stripeRoutes : List Str :=
  ["/health".data, "/checkout".data, "/portal".data, "/webhook".data, "/prices".data]

/-- Outcome of the stripe worker's `fetch` dispatcher: which branch of the
route cascade answers the request. -/
inductive StripeOutcome
  | preflight
  | unconfigured
  | health
  | checkout
  | portal
  | webhook
  | prices
  | notFound (routes : List Str)
deriving DecidableEq

/-- The `fetch` entry of the stripe worker: `OPTIONS` preflight first, then
the `STRIPE_SECRET_KEY` guard (503), then the route cascade, with a 404
listing the valid routes as the final `else`. -/
def stripeFetch (method path : Str) (env : StripeEnv) : StripeOutcome :=
  if method = "OPTIONS".data then .preflight
  else if !jsTruthy env.secretKey then .unconfigured
  else if path = "/health".data then .health
  else if method = "POST".data ∧ path = "/checkout".data then .checkout
  else if method = "POST".data ∧ path = "/portal".data then .portal
  else if method = "POST".data ∧ path = "/webhook".data then .webhook
  else if method = "GET".data ∧ path = "/prices".data then .prices
  else .notFound stripeRoutes

/-! ### AI gateway worker (`workers/gateway.js`) -/

/-- The fixed `BACKENDS` table of the gateway worker. -/
def BACKENDS : List (Str × Str) :=
  [("ollama".data, "http://127.0.0.1:11434".data),
   ("claude".data, "https://api.anthropic.com".data),
   ("openai".data, "https://api.openai.com".data)]

/-- Case-sensitive lookup in the backends table (`BACKENDS[provider]`). -/
def backendFor (provider : Str) : Option Str :=
  (BACKENDS.find? (fun p => p.1 = provider)).map (fun p => p.2)

/-- The credential bindings of the gateway worker. -/
structure GatewayEnv where
  anthropicKey : Str
  openaiKey : Str
deriving DecidableEq

/-- The parts of the inbound request that the gateway worker reads:
the `provider` query parameter, `url.pathname`, `url.search`, the method and
the headers. -/
structure GatewayRequest where
  provider : Option Str
  pathname : Str
  search : Str
  method : Str
  headers : List (Str × Str)
deriving DecidableEq

/-- `Headers.set(name, value)`: replace in place or append. -/
def headersSet (hs : List (Str × Str)) (k v : Str) : List (Str × Str) :=
  match hs with
  | [] => [(k, v)]
  | (k₀, v₀) :: rest => if k₀ = k then (k, v) :: rest else (k₀, v₀) :: headersSet rest k v

/-- The outbound request the gateway worker forwards: target URL, method,
headers after credential injection, and whether a body is attached
(`request.method !== 'GET'`). -/
structure ProxiedRequest where
  url : Str
  method : Str
  headers : List (Str × Str)
  hasBody : Bool
deriving DecidableEq

/-- Outcome of the gateway worker's `fetch`: a 400 for an unknown provider,
the upstream response passed through, or the 502 payload
`{error: err.message, backend}` built in the `catch`. -/
inductive GatewayResult (ρ : Type)
  | badRequest (msg : Str)
  | upstream (resp : ρ)
  | badGateway (errMsg backend : Str)
deriving DecidableEq

/-- The `fetch` entry of the gateway worker.  `doFetch` stands for the
outbound transport: it receives the proxied request and either returns an
upstream response or throws (`Except.error`) with an error message. -/
def gatewayFetch (doFetch : ProxiedRequest → Except Str ρ) (env : GatewayEnv)
    (req : GatewayRequest) : GatewayResult ρ :=
  let provider := jsOr req.provider "ollama".data
  match backendFor provider with
  | none => .badRequest ("Unknown provider: ".data ++ provider)
  | some backend =>
    let targetUrl := backend ++ req.pathname ++ req.search
    let headers :=
      if provider = "claude".data ∧ jsTruthy env.anthropicKey then
        headersSet req.headers "x-api-key".data env.anthropicKey
      else if provider = "openai".data ∧ jsTruthy env.openaiKey then
        headersSet req.headers "Authorization".data ("Bearer ".data ++ env.openaiKey)
      else req.headers
    match doFetch
        { url := targetUrl, method := req.method, headers := headers,
          hasBody := req.method ≠ "GET".data } with
    | .ok r => .upstream r
    | .error msg => .badGateway msg backend

/-! ### Parameter encoder (`encodeStripeParams` in the stripe worker) -/

/-- A JavaScript parameter value as fed to `encodeStripeParams`: a scalar
(kept as the string it is coerced to), `null`/`undefined`, an array, or a
plain nested object with insertion-ordered fields. -/
inductive PValue
  | str (s : Str)
  | null
  | arr (elems : List PValue)
  | obj (fields : List (Str × PValue))

/-- The `value !== null && value !== undefined` test of the encoder,
negated. -/
def isNull : PValue → Bool
  | .null => true
  | _ => false

instance : Inhabited PValue := ⟨.null⟩

mutual

/-- JavaScript string coercion of a value (the template-string `${v}` and
`encodeURIComponent` argument coercion): strings are themselves, `null`
prints `null`, arrays join their coerced elements with commas (null elements
print empty), plain objects print `[object Object]`. -/
def jsToString : PValue → Str
  | .str s => s
  | .null => "null".data
  | .arr es => List.intercalate ",".data (jsToStringList es)
  | .obj _ => "[object Object]".data

/-- The element coercions of `Array.prototype.join`. -/
def jsToStringList : List PValue → List Str
  | [] => []
  | .null :: rest => [] :: jsToStringList rest
  | v :: rest => jsToString v :: jsToStringList rest

end

/-- The decimal digit character of `d < 10`. -/
def digitChar (d : Nat) : Char := Char.ofNat ('0'.toNat + d)

/-- Decimal rendering of a natural number (the JavaScript template-string
coercion of an array index). -/
def natDigits (n : Nat) : Str :=
  if n < 10 then [digitChar n] else natDigits (n / 10) ++ [digitChar (n % 10)]
termination_by n
decreasing_by omega

/-- The characters `encodeURIComponent` leaves unescaped: ASCII letters
(65–90, 97–122), digits (48–57), and `- _ . ! ~ * ' ( )`. -/
def uriUnreserved (c : Char) : Bool :=
  (65 ≤ c.toNat && c.toNat ≤ 90) || (97 ≤ c.toNat && c.toNat ≤ 122) ||
    (48 ≤ c.toNat && c.toNat ≤ 57) ||
    (['-', '_', '.', '!', '~', '*', '\'', '(', ')'] : List Char).contains c

/-- UTF-8 byte sequence of a code point. -/
def utf8Bytes (n : Nat) : List Nat :=
  if n < 0x80 then [n]
  else if n < 0x800 then [0xC0 + n / 64, 0x80 + n % 64]
  else if n < 0x10000 then
    [0xE0 + n / 4096, 0x80 + n / 64 % 64, 0x80 + n % 64]
  else
    [0xF0 + n / 262144, 0x80 + n / 4096 % 64, 0x80 + n / 64 % 64, 0x80 + n % 64]

/-- Uppercase hexadecimal digit character of `d < 16`. -/
def hexDigitChar (d : Nat) : Char :=
  if d < 10 then Char.ofNat ('0'.toNat + d) else Char.ofNat ('A'.toNat + d - 10)

/-- Percent-escape of one byte, e.g. `%5B`. -/
def byteHex (b : Nat) : Str := ['%', hexDigitChar (b / 16), hexDigitChar (b % 16)]

/-- Encoding of one character under `encodeURIComponent`: unreserved
characters stand for themselves, everything else becomes the percent-escapes
of its UTF-8 bytes. -/
def encChar (c : Char) : Str :=
  if uriUnreserved c then [c] else (utf8Bytes c.toNat).flatMap byteHex

/-- Model of the `encodeURIComponent` platform builtin. -/
def encodeURIComponent (s : Str) : Str := s.flatMap encChar

/-- Hexadecimal digit values accepted by the percent-decoder. -/
def hexCharVal (c : Char) : Option Nat :=
  if c.isDigit then some (c.toNat - '0'.toNat)
  else if 'A' ≤ c ∧ c ≤ 'F' then some (10 + (c.toNat - 'A'.toNat))
  else if 'a' ≤ c ∧ c ≤ 'f' then some (10 + (c.toNat - 'a'.toNat))
  else none

/-- Modelled from the spec (the decoding side of the wire format, which the
repository leaves to the consumer of the flattened parameters):
percent-decoding of a wire value back to its byte sequence. -/
def percentBytes : Str → Option (List Nat)
  | [] => some []
  | '%' :: rest =>
    match rest with
    | h :: l :: rest₂ =>
      match hexCharVal h, hexCharVal l, percentBytes rest₂ with
      | some hv, some lv, some bs => some ((hv * 16 + lv) :: bs)
      | _, _, _ => none
    | _ => none
  | c :: rest =>
    if c.toNat < 128 then (percentBytes rest).map (fun bs => c.toNat :: bs)
    else none
termination_by s => s.length
decreasing_by all_goals simp <;> omega

/-- Modelled from the spec: UTF-8 decoding of a byte sequence back to code
points, fuel-bounded with one unit of fuel per code point (the byte count is
always enough fuel). -/
def utf8DecodeF : Nat → List Nat → Option (List Nat)
  | _, [] => some []
  | 0, _ :: _ => none
  | fuel + 1, b₀ :: rest =>
    if b₀ < 128 then (utf8DecodeF fuel rest).map (fun ns => b₀ :: ns)
    else if 192 ≤ b₀ ∧ b₀ < 224 then
      match rest with
      | b₁ :: rest₂ =>
        if 128 ≤ b₁ ∧ b₁ < 192 then
          (utf8DecodeF fuel rest₂).map (fun ns => ((b₀ - 192) * 64 + (b₁ - 128)) :: ns)
        else none
      | _ => none
    else if 224 ≤ b₀ ∧ b₀ < 240 then
      match rest with
      | b₁ :: b₂ :: rest₂ =>
        if (128 ≤ b₁ ∧ b₁ < 192) ∧ (128 ≤ b₂ ∧ b₂ < 192) then
          (utf8DecodeF fuel rest₂).map (fun ns =>
            ((b₀ - 224) * 4096 + (b₁ - 128) * 64 + (b₂ - 128)) :: ns)
        else none
      | _ => none
    else if 240 ≤ b₀ ∧ b₀ < 248 then
      match rest with
      | b₁ :: b₂ :: b₃ :: rest₂ =>
        if (128 ≤ b₁ ∧ b₁ < 192) ∧ (128 ≤ b₂ ∧ b₂ < 192) ∧
            (128 ≤ b₃ ∧ b₃ < 192) then
          (utf8DecodeF fuel rest₂).map (fun ns =>
            ((b₀ - 240) * 262144 + (b₁ - 128) * 4096 + (b₂ - 128) * 64 +
              (b₃ - 128)) :: ns)
        else none
      | _ => none
    else none

/-- Modelled from the spec: UTF-8 decoding of a byte sequence. -/
def utf8Decode (bs : List Nat) : Option (List Nat) := utf8DecodeF bs.length bs

/-- Modelled from the spec: the `decodeURIComponent` inverse applied by the
re-nesting consumer of the wire format. -/
def decodeURIComponent (s : Str) : Option Str :=
  match percentBytes s with
  | none => none
  | some bs =>
    match utf8Decode bs with
    | none => none
    | some ns => some (ns.map Char.ofNat)

mutual

/-- `encodeStripeParams(obj, prefix)` from the stripe worker: the `key=value`
parts of `obj` under the prefix, joined with `&`. -/
def encodeStripeParams (fields : List (Str × PValue)) (pre : Str) : Str :=
  List.intercalate ['&'] (fieldsParts fields pre)

/-- The `parts` array accumulated by the `for … of Object.entries(obj)` loop
of `encodeStripeParams`. -/
def fieldsParts : List (Str × PValue) → Str → List Str
  | [], _ => []
  | (k, v) :: rest, pre =>
    valueParts v (if pre.isEmpty then k else pre ++ '[' :: k ++ [']']) ++
      fieldsParts rest pre

/-- The parts contributed by one entry under its `fullKey`: nothing for a
null/undefined value; for a plain object the joined recursive result split
back on `&` and re-filtered, exactly as the source does; for an array one
index-bracketed part per element (the element merely string-coerced, not
recursed into); for a scalar a single percent-encoded part. -/
def valueParts : PValue → Str → List Str
  | .null, _ => []
  | .obj fs, fullKey =>
    ((encodeStripeParams fs fullKey).splitOn '&').filter (fun p => !p.isEmpty)
  | .arr es, fullKey => arrParts es 0 fullKey
  | .str s, fullKey => [fullKey ++ '=' :: encodeURIComponent s]

/-- The `value.forEach((v, i) => …)` loop for array values. -/
def arrParts : List PValue → Nat → Str → List Str
  | [], _, _ => []
  | v :: rest, i, fullKey =>
    (fullKey ++ '[' :: natDigits i ++ ']' :: '=' ::
        encodeURIComponent (jsToString v)) ::
      arrParts rest (i + 1) fullKey

end

/-- A parsed path segment of a wire key: a bracketed object key or a
bracketed numeric index. -/
inductive Seg
  | field (k : Str)
  | idx (n : Nat)
deriving DecidableEq

instance : Inhabited Seg := ⟨.field []⟩

/-- Modelled from the spec: the bracketed rendering of one path segment. -/
def segRender : Seg → Str
  | .field k => '[' :: (k ++ [']'])
  | .idx n => '[' :: (natDigits n ++ [']'])

/-- Modelled from the spec: parse the bracketed tail of a wire key into path
segments, fuel-bounded with one unit of fuel per bracket (the character
count is always enough fuel); an all-digit bracket is an array index, any
other bracket content is an object key. -/
def parseBracketsF : Nat → Str → Option (List Seg)
  | _, [] => some []
  | 0, _ :: _ => none
  | fuel + 1, '[' :: rest =>
    match rest.dropWhile (fun c => c != ']') with
    | ']' :: rest₂ =>
      match parseBracketsF fuel rest₂ with
      | none => none
      | some segs =>
        let inner := rest.takeWhile (fun c => c != ']')
        if !inner.isEmpty && inner.all Char.isDigit then
          some (.idx (decDigitsVal inner) :: segs)
        else some (.field inner :: segs)
    | _ => none
  | _ + 1, _ :: _ => none

/-- Modelled from the spec: parse the bracketed tail of a wire key. -/
def parseBrackets (s : Str) : Option (List Seg) := parseBracketsF s.length s

/-- Modelled from the spec: parse a full wire key `head[seg₁][seg₂]…` into
its segment path; the unbracketed head is always an object key. -/
def parseKey (k : Str) : Option (List Seg) :=
  let headPart := k.takeWhile (fun c => c != '[')
  if headPart.isEmpty then none
  else
    match parseBrackets (k.dropWhile (fun c => c != '[')) with
    | none => none
    | some segs => some (.field headPart :: segs)

/-- Modelled from the spec: split one wire part into key and value and
decode both. -/
def parsePair (p : Str) : Option (List Seg × Str) :=
  match p.splitOn '=' with
  | [k, v] =>
    match parseKey k, decodeURIComponent v with
    | some segs, some val => some (segs, val)
    | _, _ => none
  | _ => none

/-- Modelled from the spec: group consecutive wire pairs sharing the same
leading segment, stripping that segment from each member. -/
def groupPairs : List (List Seg × Str) → List (Seg × List (List Seg × Str))
  | [] => []
  | (path, v) :: rest =>
    let h := path.headI
    (h, ((path, v) :: rest.takeWhile (fun q => q.1.headI == h)).map
        (fun q => (q.1.tail, q.2))) ::
      groupPairs (rest.dropWhile (fun q => q.1.headI == h))
termination_by pairs => pairs.length
decreasing_by
  simp only [List.length_cons]
  have hle := (List.dropWhile_sublist (l := rest)
    (fun q => q.1.headI == path.headI)).length_le
  omega

/-- Modelled from the spec: the group heads form the index sequence
`i, i+1, …`. -/
def idxSeq : List (Seg × List (List Seg × Str)) → Nat → Bool
  | [], _ => true
  | (s, _) :: rest, i => s == .idx i && idxSeq rest (i + 1)

mutual

/-- Modelled from the spec: fuel-bounded re-nesting of decoded wire pairs
into a parameter value.  A single empty-path pair is a scalar; otherwise the
pairs are grouped on their leading segment and rebuilt as an object (all
group heads are keys) or an array (the group heads are the index sequence
0, 1, …). -/
def renestValueF : Nat → List (List Seg × Str) → Option PValue
  | 0, _ => none
  | _ + 1, [] => some (.obj [])
  | _ + 1, ([], v) :: rest => if rest.isEmpty then some (.str v) else none
  | fuel + 1, (seg :: path, v) :: rest =>
    if rest.all (fun p => !p.1.isEmpty) then
      if (groupPairs ((seg :: path, v) :: rest)).all
          (fun g => match g.1 with | .field _ => true | .idx _ => false) then
        (renestFieldsF fuel (groupPairs ((seg :: path, v) :: rest))).map PValue.obj
      else if idxSeq (groupPairs ((seg :: path, v) :: rest)) 0 then
        (renestElemsF fuel (groupPairs ((seg :: path, v) :: rest))).map PValue.arr
      else none
    else none
termination_by fuel _ => (fuel, 0)

/-- Modelled from the spec: rebuild the fields of an object from its pair
groups. -/
def renestFieldsF :
    Nat → List (Seg × List (List Seg × Str)) → Option (List (Str × PValue))
  | _, [] => some []
  | fuel, (s, sub) :: rest =>
    match s with
    | .field k =>
      match renestValueF fuel sub, renestFieldsF fuel rest with
      | some v, some fs => some ((k, v) :: fs)
      | _, _ => none
    | .idx _ => none
termination_by fuel gs => (fuel, gs.length + 1)

/-- Modelled from the spec: rebuild the elements of an array from its pair
groups. -/
def renestElemsF :
    Nat → List (Seg × List (List Seg × Str)) → Option (List PValue)
  | _, [] => some []
  | fuel, (_, sub) :: rest =>
    match renestValueF fuel sub, renestElemsF fuel rest with
    | some v, some es => some (v :: es)
    | _, _ => none
termination_by fuel gs => (fuel, gs.length + 1)

end

/-- Total path weight of decoded pairs, used as the re-nesting fuel bound. -/
def pairsWeight (pairs : List (List Seg × Str)) : Nat :=
  (pairs.map (fun p => p.1.length + 1)).sum

/-- Modelled from the spec: parse and decode every wire part. -/
def parsePairs : List Str → Option (List (List Seg × Str))
  | [] => some []
  | p :: rest =>
    match parsePair p, parsePairs rest with
    | some pr, some prs => some (pr :: prs)
    | _, _ => none

/-- Modelled from the spec: re-nest a flattened wire string back into a
parameter tree: split on `&`, drop empty parts, parse and decode each
`key=value` pair, and rebuild the nesting structure; the result is the
top-level object's field list. -/
def renestWire (wire : Str) : Option (List (Str × PValue)) :=
  match parsePairs ((wire.splitOn '&').filter (fun p => !p.isEmpty)) with
  | none => none
  | some pairs =>
    match renestValueF (pairsWeight pairs + 1) pairs with
    | some (.obj fs) => some fs
    | _ => none

/-- A wire-safe object key: nonempty, free of the delimiter characters
`[ ] & =`, and not consisting solely of digits (an all-digit bracket decodes
as an array index). -/
def safeKey (k : Str) : Bool :=
  !k.isEmpty && k.all (fun c => !(['[', ']', '&', '='] : List Char).contains c) &&
    !k.all Char.isDigit

mutual

/-- Well-formedness of a parameter value for the round-trip: arrays are
nonempty and contain only non-null scalars (the encoder string-coerces array
elements without recursing), and nested objects keep at least one non-null
field (an object that flattens to nothing cannot be re-nested). -/
def wfV : PValue → Bool
  | .str _ => true
  | .null => true
  | .arr es =>
    !es.isEmpty && es.all (fun e => match e with | .str _ => true | _ => false)
  | .obj fs =>
    decide (fs.map Prod.fst).Nodup && fs.any (fun p => !isNull p.2) && wfF fs

/-- Well-formedness of an object's field list: safe, pairwise distinct keys
and well-formed values. -/
def wfF : List (Str × PValue) → Bool
  | [] => true
  | (k, v) :: rest => safeKey k && wfV v && wfF rest

end

/-- Well-formedness of a top-level parameter tree (the top object may be
empty). -/
def wfTop (fields : List (Str × PValue)) : Bool :=
  decide (fields.map Prod.fst).Nodup && wfF fields

mutual

/-- Drop the null leaves of a value (the encoder omits them, so the
round-trip reproduces the tree up to this cleaning). -/
def cleanV : PValue → PValue
  | .obj fs => .obj (cleanF fs)
  | .str s => .str s
  | .null => .null
  | .arr es => .arr es

/-- Drop the null-valued fields of an object, recursively. -/
def cleanF : List (Str × PValue) → List (Str × PValue)
  | [] => []
  | (k, v) :: rest =>
    if isNull v then cleanF rest else (k, cleanV v) :: cleanF rest

end

mutual

/-- Proof-side companion of `valueParts`: the relative segment paths and the
raw (undecoded) scalar of every wire pair a non-null value contributes. -/
def segPairsV : PValue → List (List Seg × Str)
  | .str s => [([], s)]
  | .null => []
  | .arr es => segPairsArr es 0
  | .obj fs => segPairsF fs

/-- Pairs of an array value: one index-bracketed pair per string-coerced
element. -/
def segPairsArr : List PValue → Nat → List (List Seg × Str)
  | [], _ => []
  | v :: rest, i => ([.idx i], jsToString v) :: segPairsArr rest (i + 1)

/-- Pairs of an object's field list: each non-null value's pairs with the
field key prepended. -/
def segPairsF : List (Str × PValue) → List (List Seg × Str)
  | [] => []
  | (k, v) :: rest =>
    (segPairsV v).map (fun p => (Seg.field k :: p.1, p.2)) ++ segPairsF rest

end

/-- Proof-side rendering of a pair path under a prefix, mirroring the
`fullKey` construction of the source. -/
def renderPath (pre : Str) : List Seg → Str
  | [] => pre
  | .field k :: rest =>
    renderPath (if pre.isEmpty then k else pre ++ '[' :: k ++ [']']) rest
  | .idx n :: rest => renderPath (pre ++ '[' :: natDigits n ++ [']']) rest

mutual

/-- Fuel needed by the re-nesting of a value's pairs. -/
def fuelNeedV : PValue → Nat
  | .str _ => 0
  | .null => 0
  | .arr _ => 1
  | .obj fs => fuelNeedF fs + 1

/-- Fuel needed by the re-nesting of an object's field pairs. -/
def fuelNeedF : List (Str × PValue) → Nat
  | [] => 0
  | (_, v) :: rest => max (fuelNeedV v) (fuelNeedF rest)

end

/-- The field groups that `groupPairs` recovers from a well-formed object's
pairs: one group per non-null field, in order. -/
def fieldGroups : List (Str × PValue) → List (Seg × List (List Seg × Str))
  | [] => []
  | (k, v) :: rest =>
    if isNull v then fieldGroups rest
    else (.field k, segPairsV v) :: fieldGroups rest

/-- The element groups that `groupPairs` recovers from an array's pairs. -/
def elemGroups : List PValue → Nat → List (Seg × List (List Seg × Str))
  | [], _ => []
  | v :: rest, i => (.idx i, [([], jsToString v)]) :: elemGroups rest (i + 1)

/-- Wire-safety of one path segment: object keys must be safe, indices
always are. -/
def segSafe : Seg → Bool
  | .field k => safeKey k
  | .idx _ => true

/-- A constant function standing in for the HMAC collaborator in concrete
evaluations. -/
def hmacConst (out : Str) : Str → Str → Str := fun _ _ => out

/-- A concrete well-formed parameter tree used for concrete evaluations:
a scalar needing percent-encoding, a nested object with a null field to
drop, and an array of scalars. -/
def treeDemo : List (Str × PValue) :=
  [("a".data, PValue.str "x y".data),
   ("b".data, PValue.obj
     [("c".data, PValue.str "1".data), ("d".data, PValue.null)]),
   ("e".data, PValue.arr [PValue.str "u".data, PValue.str "v".data])]

/-- The tree of the round-trip counterexample: one empty nested object. -/
def treeEmptyObj : List (Str × PValue) := [("a".data, PValue.obj [])]

/-- A configured deployment environment used for concrete evaluations. -/
def envDemo : StripeEnv :=
  { secretKey := "sk".data, webhookSecret := [], allowedOrigin := [] }

/-- A concrete event used for concrete evaluations. -/
def evDemo : StripeEvent :=
  { type := "x".data, objectId := [], objectCustomer := [], objectStatus := [] }

/-! ### Helper lemmas -/

theorem splitOn_sep_first {α : Type} [DecidableEq α] (a : α) (xs ys : List α)
    (h : a ∉ xs) : (xs ++ a :: ys).splitOn a = xs :: ys.splitOn a := by
  refine List.splitOnP_first (· == a) xs ?_ a (by simp) ys
  intro x hx
  simp only [beq_iff_eq]
  exact fun he => h (he ▸ hx)

theorem splitOn_no_sep {α : Type} [DecidableEq α] (a : α) (xs : List α)
    (h : a ∉ xs) : xs.splitOn a = [xs] := by
  refine List.splitOnP_eq_single (· == a) xs ?_
  intro x hx
  simp only [beq_iff_eq]
  exact fun he => h (he ▸ hx)

/-- Parsing the header `t=<ts>,v1=<sig>` yields exactly the two-entry object
`{t: ts, v1: sig}`, provided neither value contains a separator. -/
theorem parseSigHeader_two (ts sig : Str) (htsc : ',' ∉ ts) (htse : '=' ∉ ts)
    (hsc : ',' ∉ sig) (hse : '=' ∉ sig) :
    parseSigHeader ("t=".data ++ ts ++ ",v1=".data ++ sig) =
      [("t".data, some ts), ("v1".data, some sig)] := by
  have hh : "t=".data ++ ts ++ ",v1=".data ++ sig =
      ('t' :: '=' :: ts) ++ ',' :: ('v' :: '1' :: '=' :: sig) := by
    simp [String.data]
  have h₁ : (('t' :: '=' :: ts) ++ ',' :: ('v' :: '1' :: '=' :: sig)).splitOn ',' =
      ('t' :: '=' :: ts) :: [('v' :: '1' :: '=' :: sig)] := by
    rw [splitOn_sep_first ',' _ _ (by simp [htsc]),
      splitOn_no_sep ',' _ (by simp [hsc])]
  simp only [List.cons_append] at h₁
  have h₂ : ('t' :: '=' :: ts).splitOn '=' = [['t'], ts] := by
    have : ('t' :: '=' :: ts) = ['t'] ++ '=' :: ts := rfl
    rw [this, splitOn_sep_first '=' _ _ (by simp), splitOn_no_sep '=' _ htse]
  have h₃ : ('v' :: '1' :: '=' :: sig).splitOn '=' = [['v', '1'], sig] := by
    have : ('v' :: '1' :: '=' :: sig) = ['v', '1'] ++ '=' :: sig := rfl
    rw [this, splitOn_sep_first '=' _ _ (by simp), splitOn_no_sep '=' _ hse]
  rw [hh]
  simp [parseSigHeader, h₁, h₂, h₃, jsSet, String.data]

/-! ### Digit and character lemmas for the parameter encoder -/

theorem digitChar_isDigit : ∀ d, d < 10 → (digitChar d).isDigit = true := by decide

theorem digitVal_digitChar : ∀ d, d < 10 → digitVal (digitChar d) = d := by decide

theorem natDigits_digits (n : Nat) : ∀ c ∈ natDigits n, c.isDigit = true := by
  induction n using Nat.strong_induction_on with
  | _ n ih =>
    intro c hc
    rw [natDigits] at hc
    by_cases h : n < 10
    · rw [if_pos h] at hc
      simp only [List.mem_singleton] at hc
      exact hc ▸ digitChar_isDigit n h
    · rw [if_neg h] at hc
      rcases List.mem_append.mp hc with hc | hc
      · exact ih (n / 10) (by omega) c hc
      · simp only [List.mem_singleton] at hc
        exact hc ▸ digitChar_isDigit (n % 10) (by omega)

theorem natDigits_ne_nil (n : Nat) : natDigits n ≠ [] := by
  rw [natDigits]
  split
  · simp
  · simp

theorem decDigitsVal_append (xs : Str) (c : Char) :
    decDigitsVal (xs ++ [c]) = decDigitsVal xs * 10 + digitVal c := by
  simp [decDigitsVal, List.foldl_append]

theorem decDigitsVal_natDigits (n : Nat) : decDigitsVal (natDigits n) = n := by
  induction n using Nat.strong_induction_on with
  | _ n ih =>
    rw [natDigits]
    by_cases h : n < 10
    · rw [if_pos h]
      have : decDigitsVal [digitChar n] = digitVal (digitChar n) := by
        simp [decDigitsVal]
      rw [this, digitVal_digitChar n h]
    · rw [if_neg h, decDigitsVal_append, ih (n / 10) (by omega),
        digitVal_digitChar (n % 10) (by omega)]
      omega

theorem isDigit_ne_delims (c : Char) (h : c.isDigit = true) :
    c ≠ '[' ∧ c ≠ ']' ∧ c ≠ '&' ∧ c ≠ '=' ∧ c ≠ '%' := by
  refine ⟨?_, ?_, ?_, ?_, ?_⟩ <;> rintro rfl <;> exact absurd h (by decide)

theorem char_toNat_lt (c : Char) : c.toNat < 1114112 := by
  rcases c.valid with h | h
  · exact Nat.lt_trans h (by decide)
  · exact h.2

theorem uriUnreserved_props (c : Char) (h : uriUnreserved c = true) :
    c.toNat < 128 ∧ c ≠ '%' ∧ c ≠ '&' ∧ c ≠ '=' := by
  simp only [uriUnreserved, Bool.or_eq_true, Bool.and_eq_true,
    decide_eq_true_eq, List.contains_cons, List.contains_nil, beq_iff_eq,
    Bool.false_eq_true, or_false] at h
  rcases h with (((h | h) | h) | h)
  · refine ⟨by omega, ?_, ?_, ?_⟩ <;> rintro rfl <;> exact absurd h (by decide)
  · refine ⟨by omega, ?_, ?_, ?_⟩ <;> rintro rfl <;> exact absurd h (by decide)
  · refine ⟨by omega, ?_, ?_, ?_⟩ <;> rintro rfl <;> exact absurd h (by decide)
  · rcases h with rfl | rfl | rfl | rfl | rfl | rfl | rfl | rfl | rfl <;>
      exact ⟨by decide, by decide, by decide, by decide⟩

theorem utf8Bytes_lt (n : Nat) (hn : n < 1114112) :
    ∀ b ∈ utf8Bytes n, b < 256 := by
  intro b hb
  rw [utf8Bytes] at hb
  by_cases h1 : n < 128
  · rw [if_pos h1] at hb
    simp only [List.mem_singleton] at hb
    omega
  · rw [if_neg h1] at hb
    by_cases h2 : n < 2048
    · rw [if_pos h2] at hb
      simp only [List.mem_cons, List.not_mem_nil, or_false] at hb
      rcases hb with rfl | rfl <;> omega
    · rw [if_neg h2] at hb
      by_cases h3 : n < 65536
      · rw [if_pos h3] at hb
        simp only [List.mem_cons, List.not_mem_nil, or_false] at hb
        rcases hb with rfl | rfl | rfl <;> omega
      · rw [if_neg h3] at hb
        simp only [List.mem_cons, List.not_mem_nil, or_false] at hb
        rcases hb with rfl | rfl | rfl | rfl <;> omega

theorem hexCharVal_hexDigitChar : ∀ d, d < 16 →
    hexCharVal (hexDigitChar d) = some d := by decide

theorem hexDigitChar_ne : ∀ d, d < 16 →
    hexDigitChar d ≠ '&' ∧ hexDigitChar d ≠ '=' := by decide

theorem encChar_no_delims (c : Char) : ∀ x ∈ encChar c, x ≠ '&' ∧ x ≠ '=' := by
  intro x hx
  rw [encChar] at hx
  by_cases h : uriUnreserved c = true
  · rw [if_pos h] at hx
    simp only [List.mem_singleton] at hx
    subst hx
    exact ⟨(uriUnreserved_props x h).2.2.1, (uriUnreserved_props x h).2.2.2⟩
  · rw [if_neg h] at hx
    obtain ⟨b, hb, hxb⟩ := List.mem_flatMap.mp hx
    have hblt : b < 256 := utf8Bytes_lt c.toNat (char_toNat_lt c) b hb
    rw [byteHex] at hxb
    simp only [List.mem_cons, List.mem_singleton, List.not_mem_nil, or_false] at hxb
    rcases hxb with rfl | rfl | rfl
    · exact ⟨by decide, by decide⟩
    · exact hexDigitChar_ne (b / 16) (by omega)
    · exact hexDigitChar_ne (b % 16) (by omega)

theorem encodeURIComponent_no_delims (s : Str) :
    ∀ x ∈ encodeURIComponent s, x ≠ '&' ∧ x ≠ '=' := by
  intro x hx
  obtain ⟨c, _, hcx⟩ := List.mem_flatMap.mp hx
  exact encChar_no_delims c x hcx

/-! ### Percent- and UTF-8 round trips -/

theorem utf8DecodeF_nil (fuel : Nat) : utf8DecodeF fuel [] = some [] := by
  cases fuel <;> rfl

theorem utf8DecodeF_one (fuel b₀ : Nat) (rest : List Nat) (h : b₀ < 128) :
    utf8DecodeF (fuel + 1) (b₀ :: rest) =
      (utf8DecodeF fuel rest).map (fun ns => b₀ :: ns) := by
  rw [utf8DecodeF.eq_def]
  simp only []
  rw [if_pos h]

theorem utf8DecodeF_two (fuel b₀ b₁ : Nat) (rest : List Nat)
    (h0 : 192 ≤ b₀ ∧ b₀ < 224) (h1 : 128 ≤ b₁ ∧ b₁ < 192) :
    utf8DecodeF (fuel + 1) (b₀ :: b₁ :: rest) =
      (utf8DecodeF fuel rest).map (fun ns => ((b₀ - 192) * 64 + (b₁ - 128)) :: ns) := by
  have hn : ¬ b₀ < 128 := by omega
  rw [utf8DecodeF.eq_def]
  simp only []
  rw [if_neg hn, if_pos h0]
  simp only [h1.1, h1.2, and_self, if_true]

theorem utf8DecodeF_three (fuel b₀ b₁ b₂ : Nat) (rest : List Nat)
    (h0 : 224 ≤ b₀ ∧ b₀ < 240) (h1 : 128 ≤ b₁ ∧ b₁ < 192)
    (h2 : 128 ≤ b₂ ∧ b₂ < 192) :
    utf8DecodeF (fuel + 1) (b₀ :: b₁ :: b₂ :: rest) =
      (utf8DecodeF fuel rest).map (fun ns =>
        ((b₀ - 224) * 4096 + (b₁ - 128) * 64 + (b₂ - 128)) :: ns) := by
  have hn : ¬ b₀ < 128 := by omega
  have hn2 : ¬ (192 ≤ b₀ ∧ b₀ < 224) := by omega
  rw [utf8DecodeF.eq_def]
  simp only []
  rw [if_neg hn, if_neg hn2, if_pos h0]
  simp only [h1.1, h1.2, h2.1, h2.2, and_self, if_true]

theorem utf8DecodeF_four (fuel b₀ b₁ b₂ b₃ : Nat) (rest : List Nat)
    (h0 : 240 ≤ b₀ ∧ b₀ < 248) (h1 : 128 ≤ b₁ ∧ b₁ < 192)
    (h2 : 128 ≤ b₂ ∧ b₂ < 192) (h3 : 128 ≤ b₃ ∧ b₃ < 192) :
    utf8DecodeF (fuel + 1) (b₀ :: b₁ :: b₂ :: b₃ :: rest) =
      (utf8DecodeF fuel rest).map (fun ns =>
        ((b₀ - 240) * 262144 + (b₁ - 128) * 4096 + (b₂ - 128) * 64 +
          (b₃ - 128)) :: ns) := by
  have hn : ¬ b₀ < 128 := by omega
  have hn2 : ¬ (192 ≤ b₀ ∧ b₀ < 224) := by omega
  have hn3 : ¬ (224 ≤ b₀ ∧ b₀ < 240) := by omega
  rw [utf8DecodeF.eq_def]
  simp only []
  rw [if_neg hn, if_neg hn2, if_neg hn3, if_pos h0]
  simp only [h1.1, h1.2, h2.1, h2.2, h3.1, h3.2, and_self, if_true]

theorem utf8DecodeF_encode (n : Nat) (hn : n < 1114112) (fuel : Nat)
    (rest : List Nat) :
    utf8DecodeF (fuel + 1) (utf8Bytes n ++ rest) =
      (utf8DecodeF fuel rest).map (fun ns => n :: ns) := by
  rw [utf8Bytes]
  by_cases h1 : n < 128
  · rw [if_pos h1]
    simp only [List.cons_append, List.nil_append]
    rw [utf8DecodeF_one fuel n rest h1]
  · rw [if_neg h1]
    by_cases h2 : n < 2048
    · rw [if_pos h2]
      simp only [List.cons_append, List.nil_append]
      rw [utf8DecodeF_two fuel _ _ rest (by omega) (by omega)]
      have hv : (192 + n / 64 - 192) * 64 + (128 + n % 64 - 128) = n := by omega
      rw [hv]
    · rw [if_neg h2]
      by_cases h3 : n < 65536
      · rw [if_pos h3]
        simp only [List.cons_append, List.nil_append]
        rw [utf8DecodeF_three fuel _ _ _ rest (by omega) (by omega) (by omega)]
        have hv : (224 + n / 4096 - 224) * 4096 + (128 + n / 64 % 64 - 128) * 64 +
            (128 + n % 64 - 128) = n := by omega
        rw [hv]
      · rw [if_neg h3]
        simp only [List.cons_append, List.nil_append]
        rw [utf8DecodeF_four fuel _ _ _ _ rest (by omega) (by omega) (by omega)
          (by omega)]
        have hv : (240 + n / 262144 - 240) * 262144 +
            (128 + n / 4096 % 64 - 128) * 4096 +
            (128 + n / 64 % 64 - 128) * 64 + (128 + n % 64 - 128) = n := by omega
        rw [hv]

theorem utf8DecodeF_flat (s : Str) : ∀ fuel, s.length ≤ fuel →
    utf8DecodeF fuel (s.flatMap (fun c => utf8Bytes c.toNat)) =
      some (s.map Char.toNat) := by
  induction s with
  | nil => intro fuel _; exact utf8DecodeF_nil fuel
  | cons c rest ih =>
    intro fuel hf
    obtain ⟨f, rfl⟩ : ∃ f, fuel = f + 1 := ⟨fuel - 1, by simp at hf; omega⟩
    simp only [List.flatMap_cons, List.map_cons]
    rw [utf8DecodeF_encode c.toNat (char_toNat_lt c) f, ih f (by simp at hf; omega)]
    rfl

theorem utf8Bytes_length_pos (n : Nat) : 1 ≤ (utf8Bytes n).length := by
  rw [utf8Bytes]
  split
  · simp
  · split
    · simp
    · split <;> simp

theorem flatMap_utf8_length (s : Str) :
    s.length ≤ (s.flatMap (fun c => utf8Bytes c.toNat)).length := by
  induction s with
  | nil => simp
  | cons c rest ih =>
    simp only [List.flatMap_cons, List.length_append, List.length_cons]
    have := utf8Bytes_length_pos c.toNat
    omega

theorem utf8Decode_flat (s : Str) :
    utf8Decode (s.flatMap (fun c => utf8Bytes c.toNat)) = some (s.map Char.toNat) :=
  utf8DecodeF_flat s _ (flatMap_utf8_length s)

theorem percentBytes_unreserved (c : Char) (rest : Str) (h1 : c.toNat < 128)
    (h2 : c ≠ '%') :
    percentBytes (c :: rest) = (percentBytes rest).map (fun bs => c.toNat :: bs) := by
  rw [percentBytes]
  · rw [if_pos h1]
  · exact h2

theorem percentBytes_hex (b : Nat) (hb : b < 256) (rest : Str) :
    percentBytes (byteHex b ++ rest) = (percentBytes rest).map (fun bs => b :: bs) := by
  rw [byteHex]
  simp only [List.cons_append, List.nil_append]
  rw [percentBytes]
  rw [hexCharVal_hexDigitChar (b / 16) (by omega),
    hexCharVal_hexDigitChar (b % 16) (by omega)]
  have hv : b / 16 * 16 + b % 16 = b := by omega
  cases hpb : percentBytes rest with
  | none => simp [hv]
  | some bs => simp [hv]

theorem percentBytes_multi (bs : List Nat) (h : ∀ b ∈ bs, b < 256) (rest : Str) :
    percentBytes (bs.flatMap byteHex ++ rest) =
      (percentBytes rest).map (fun tail => bs ++ tail) := by
  induction bs with
  | nil =>
    simp only [List.flatMap_nil, List.nil_append]
    cases percentBytes rest <;> simp
  | cons b bs ih =>
    simp only [List.flatMap_cons, List.append_assoc]
    rw [percentBytes_hex b (h b (by simp)) _,
      ih (fun x hx => h x (by simp [hx]))]
    cases percentBytes rest <;> simp

theorem percentBytes_enc (s : Str) (rest : Str) :
    percentBytes (encodeURIComponent s ++ rest) =
      (percentBytes rest).map
        (fun bs => s.flatMap (fun c => utf8Bytes c.toNat) ++ bs) := by
  induction s with
  | nil =>
    simp only [encodeURIComponent, List.flatMap_nil, List.nil_append]
    cases percentBytes rest <;> simp
  | cons c s ih =>
    simp only [encodeURIComponent, List.flatMap_cons, List.append_assoc] at *
    rw [encChar]
    by_cases h : uriUnreserved c = true
    · rw [if_pos h]
      obtain ⟨hlt, hpc, -, -⟩ := uriUnreserved_props c h
      simp only [List.cons_append, List.nil_append]
      rw [percentBytes_unreserved c _ hlt hpc, ih]
      have hb : utf8Bytes c.toNat = [c.toNat] := by rw [utf8Bytes, if_pos hlt]
      rw [hb]
      cases percentBytes rest <;> simp
    · rw [if_neg h]
      rw [percentBytes_multi _ (utf8Bytes_lt c.toNat (char_toNat_lt c)) _, ih]
      cases percentBytes rest <;> simp

theorem decodeURIComponent_enc (s : Str) :
    decodeURIComponent (encodeURIComponent s) = some s := by
  have h1 : percentBytes (encodeURIComponent s) =
      some (s.flatMap (fun c => utf8Bytes c.toNat)) := by
    have h := percentBytes_enc s []
    rw [show percentBytes ([] : Str) = some [] from by rw [percentBytes]] at h
    simpa using h
  rw [decodeURIComponent, h1]
  simp [utf8Decode_flat, List.map_map, Function.comp_def, Char.ofNat_toNat]

/-! ### Structure of the flattened pairs -/

theorem safeKey_props (k : Str) (h : safeKey k = true) :
    k ≠ [] ∧ (∀ c ∈ k, c ≠ '[' ∧ c ≠ ']' ∧ c ≠ '&' ∧ c ≠ '=') ∧
      ¬(∀ c ∈ k, c.isDigit = true) := by
  simp only [safeKey, Bool.and_eq_true, Bool.not_eq_true', List.isEmpty_eq_false,
    List.all_eq_true] at h
  obtain ⟨⟨hne, hc⟩, hd⟩ := h
  refine ⟨hne, ?_, ?_⟩
  · intro c hcm
    have h2 := hc c hcm
    simp only [List.contains_cons, List.contains_nil, Bool.not_eq_true,
      Bool.or_eq_false_iff, beq_eq_false_iff_ne, ne_eq] at h2
    exact ⟨h2.1, h2.2.1, h2.2.2.1, h2.2.2.2.1⟩
  · intro hall
    have : k.all Char.isDigit = true := List.all_eq_true.mpr hall
    rw [this] at hd
    exact absurd hd (by decide)

theorem segPairsArr_shape (es : List PValue) (i : Nat) :
    ∀ q ∈ segPairsArr es i, ∃ j, i ≤ j ∧ q.1 = [Seg.idx j] := by
  induction es generalizing i with
  | nil => intro q hq; rw [segPairsArr] at hq; cases hq
  | cons v rest ih =>
    intro q hq
    rw [segPairsArr] at hq
    rcases List.mem_cons.mp hq with rfl | hq
    · exact ⟨i, le_refl i, rfl⟩
    · obtain ⟨j, hij, hj⟩ := ih (i + 1) q hq
      exact ⟨j, by omega, hj⟩

theorem isNull_eq_true_iff (v : PValue) : isNull v = true ↔ v = PValue.null := by
  cases v <;> simp [isNull]

mutual

theorem segPairsV_ne : ∀ (v : PValue), wfV v = true → v ≠ PValue.null →
    segPairsV v ≠ []
  | .str s, _, _ => by rw [segPairsV]; simp
  | .null, _, hnn => absurd rfl hnn
  | .arr es, hwf, _ => by
    rw [segPairsV]
    have hne : es ≠ [] := by
      rw [wfV] at hwf
      simp only [Bool.and_eq_true, Bool.not_eq_true', List.isEmpty_eq_false] at hwf
      exact hwf.1
    cases es with
    | nil => exact absurd rfl hne
    | cons e rest => rw [segPairsArr]; simp
  | .obj fs, hwf, _ => by
    rw [segPairsV]
    rw [wfV] at hwf
    simp only [Bool.and_eq_true] at hwf
    exact segPairsF_ne fs hwf.2 hwf.1.2

theorem segPairsF_ne : ∀ (fs : List (Str × PValue)), wfF fs = true →
    fs.any (fun p => !isNull p.2) = true → segPairsF fs ≠ []
  | [], _, hany => by simp at hany
  | (k, v) :: rest, hwf, hany => by
    rw [wfF] at hwf
    simp only [Bool.and_eq_true] at hwf
    rw [segPairsF]
    by_cases hv : isNull v = true
    · have hvn : v = PValue.null := (isNull_eq_true_iff v).mp hv
      have hrest : rest.any (fun p => !isNull p.2) = true := by
        simp only [List.any_cons, Bool.or_eq_true] at hany
        rcases hany with h | h
        · rw [hv] at h; exact absurd h (by decide)
        · exact h
      have := segPairsF_ne rest hwf.2 hrest
      intro hcontra
      rcases List.append_eq_nil.mp hcontra with ⟨-, h2⟩
      exact this h2
    · have hvn : v ≠ PValue.null := by
        intro he
        exact hv ((isNull_eq_true_iff v).mpr he)
      have := segPairsV_ne v hwf.1.2 hvn
      intro hcontra
      rcases List.append_eq_nil.mp hcontra with ⟨h1, -⟩
      exact this (by simpa using h1)

end

theorem segPairsF_heads (fs : List (Str × PValue)) :
    ∀ q ∈ segPairsF fs, ∃ k, k ∈ fs.map Prod.fst ∧ ∃ t, q.1 = Seg.field k :: t := by
  induction fs with
  | nil => intro q hq; rw [segPairsF] at hq; cases hq
  | cons f rest ih =>
    intro q hq
    obtain ⟨k, v⟩ := f
    rw [segPairsF] at hq
    rcases List.mem_append.mp hq with hq | hq
    · obtain ⟨p, -, rfl⟩ := List.mem_map.mp hq
      exact ⟨k, by simp, p.1, rfl⟩
    · obtain ⟨k', hk', t, ht⟩ := ih q hq
      exact ⟨k', by simp [hk'], t, ht⟩

mutual

theorem segPairsV_safe : ∀ (v : PValue), wfV v = true →
    ∀ p ∈ segPairsV v, ∀ s ∈ p.1, segSafe s = true
  | .str _, _ => by
    rw [segPairsV]
    intro p hp s hs
    simp only [List.mem_singleton] at hp
    subst hp
    cases hs
  | .null, _ => by rw [segPairsV]; intro p hp; cases hp
  | .arr es, _ => by
    rw [segPairsV]
    intro p hp s hs
    obtain ⟨j, -, hj⟩ := segPairsArr_shape es 0 p hp
    rw [hj] at hs
    simp only [List.mem_singleton] at hs
    subst hs
    rw [segSafe]
  | .obj fs, hwf => by
    rw [segPairsV]
    rw [wfV] at hwf
    simp only [Bool.and_eq_true] at hwf
    exact segPairsF_safe fs hwf.2

theorem segPairsF_safe : ∀ (fs : List (Str × PValue)), wfF fs = true →
    ∀ p ∈ segPairsF fs, ∀ s ∈ p.1, segSafe s = true
  | [], _ => by rw [segPairsF]; intro p hp; cases hp
  | (k, v) :: rest, hwf => by
    rw [wfF] at hwf
    simp only [Bool.and_eq_true] at hwf
    rw [segPairsF]
    intro p hp s hs
    rcases List.mem_append.mp hp with hp | hp
    · obtain ⟨q, hq, rfl⟩ := List.mem_map.mp hp
      simp only [List.mem_cons] at hs
      rcases hs with rfl | hs
      · rw [segSafe]; exact hwf.1.1
      · exact segPairsV_safe v hwf.1.2 q hq s hs
    · exact segPairsF_safe rest hwf.2 p hp s hs

end

/-! ### Rendering of pair paths -/

theorem renderPath_eq (path : List Seg) : ∀ pre : Str, pre ≠ [] →
    renderPath pre path = pre ++ path.flatMap segRender := by
  induction path with
  | nil => intro pre _; rw [renderPath]; simp
  | cons s rest ih =>
    intro pre hpre
    cases s with
    | field k =>
      rw [renderPath]
      rw [if_neg (by simpa [List.isEmpty_iff] using hpre)]
      rw [ih (pre ++ '[' :: k ++ [']']) (by simp)]
      simp [segRender, List.flatMap_cons]
    | idx n =>
      rw [renderPath]
      rw [ih (pre ++ '[' :: natDigits n ++ [']']) (by simp)]
      simp [segRender, List.flatMap_cons]

theorem renderPath_ne (path : List Seg) (pre : Str) (hpre : pre ≠ []) :
    renderPath pre path ≠ [] := by
  rw [renderPath_eq path pre hpre]
  simp [hpre]

theorem segRender_chars (s : Seg) (hs : segSafe s = true) :
    ∀ c ∈ segRender s, c ≠ '&' ∧ c ≠ '=' := by
  cases s with
  | field k =>
    rw [segSafe] at hs
    obtain ⟨-, hchars, -⟩ := safeKey_props k hs
    intro c hc
    rw [segRender] at hc
    rcases List.mem_cons.mp hc with rfl | hc
    · exact ⟨by decide, by decide⟩
    rcases List.mem_append.mp hc with hc | hc
    · exact ⟨(hchars c hc).2.2.1, (hchars c hc).2.2.2⟩
    · obtain rfl := List.mem_singleton.mp hc
      exact ⟨by decide, by decide⟩
  | idx n =>
    intro c hc
    rw [segRender] at hc
    rcases List.mem_cons.mp hc with rfl | hc
    · exact ⟨by decide, by decide⟩
    rcases List.mem_append.mp hc with hc | hc
    · have := natDigits_digits n c hc
      exact ⟨(isDigit_ne_delims c this).2.2.1, (isDigit_ne_delims c this).2.2.2.1⟩
    · obtain rfl := List.mem_singleton.mp hc
      exact ⟨by decide, by decide⟩

theorem renderPath_chars (path : List Seg) (pre : Str)
    (hpre : ∀ c ∈ pre, c ≠ '&' ∧ c ≠ '=') (hsafe : ∀ s ∈ path, segSafe s = true)
    (hprene : pre ≠ []) :
    ∀ c ∈ renderPath pre path, c ≠ '&' ∧ c ≠ '=' := by
  rw [renderPath_eq path pre hprene]
  intro c hc
  rcases List.mem_append.mp hc with hc | hc
  · exact hpre c hc
  · obtain ⟨s, hsm, hcs⟩ := List.mem_flatMap.mp hc
    exact segRender_chars s (hsafe s hsm) c hcs

/-! ### Joining and splitting the wire -/

theorem splitOn_intercalate_filter (ls : List Str)
    (h : ∀ l ∈ ls, l ≠ [] ∧ '&' ∉ l) :
    ((List.intercalate ['&'] ls).splitOn '&').filter (fun p => !p.isEmpty) = ls := by
  cases hls : ls with
  | nil => simp [List.intercalate]
  | cons a tl =>
    rw [← hls]
    rw [List.splitOn_intercalate ls '&' (fun l hl => (h l hl).2) (by rw [hls]; simp)]
    rw [List.filter_eq_self.mpr]
    intro x hx
    simpa [List.isEmpty_iff] using (h x hx).1

/-! ### The source flattening computes the rendered pair view -/

theorem arrParts_eq (es : List PValue) : ∀ (i : Nat) (fullKey : Str),
    arrParts es i fullKey = (segPairsArr es i).map
      (fun p => renderPath fullKey p.1 ++ '=' :: encodeURIComponent p.2) := by
  induction es with
  | nil => intro i fullKey; rw [arrParts, segPairsArr]; rfl
  | cons v rest ih =>
    intro i fullKey
    rw [arrParts, segPairsArr]
    rw [List.map_cons, ih (i + 1) fullKey]
    congr 1
    rw [renderPath, renderPath]
    simp

mutual

theorem fieldsParts_eq : ∀ (fs : List (Str × PValue)) (pre : Str),
    wfF fs = true → (∀ c ∈ pre, c ≠ '&' ∧ c ≠ '=') →
    fieldsParts fs pre = (segPairsF fs).map
      (fun p => renderPath pre p.1 ++ '=' :: encodeURIComponent p.2)
  | [], pre, _, _ => by rw [fieldsParts, segPairsF]; rfl
  | (k, v) :: rest, pre, hwf, hpre => by
    rw [wfF] at hwf
    simp only [Bool.and_eq_true] at hwf
    obtain ⟨⟨hk, hv⟩, hrest⟩ := hwf
    rw [fieldsParts, segPairsF, List.map_append, List.map_map]
    obtain ⟨hkne, hkchars, -⟩ := safeKey_props k hk
    have hfkchars : ∀ c ∈ (if pre.isEmpty then k else pre ++ '[' :: k ++ [']']),
        c ≠ '&' ∧ c ≠ '=' := by
      split
      · intro c hc
        exact ⟨(hkchars c hc).2.2.1, (hkchars c hc).2.2.2⟩
      · intro c hc
        rcases List.mem_append.mp hc with hc | hc
        · rcases List.mem_append.mp hc with hc | hc
          · exact hpre c hc
          · rcases List.mem_cons.mp hc with rfl | hc
            · exact ⟨by decide, by decide⟩
            · exact ⟨(hkchars c hc).2.2.1, (hkchars c hc).2.2.2⟩
        · obtain rfl := List.mem_singleton.mp hc
          exact ⟨by decide, by decide⟩
    have hfkne : (if pre.isEmpty then k else pre ++ '[' :: k ++ [']']) ≠ [] := by
      split
      · exact hkne
      · simp
    rw [valueParts_eq v _ hv hfkne hfkchars, fieldsParts_eq rest pre hrest hpre]
    congr 1

theorem valueParts_eq : ∀ (v : PValue) (fullKey : Str),
    wfV v = true → fullKey ≠ [] → (∀ c ∈ fullKey, c ≠ '&' ∧ c ≠ '=') →
    valueParts v fullKey = (segPairsV v).map
      (fun p => renderPath fullKey p.1 ++ '=' :: encodeURIComponent p.2)
  | .null, fullKey, _, _, _ => by rw [valueParts, segPairsV]; rfl
  | .str s, fullKey, _, _, _ => by
    rw [valueParts, segPairsV]
    simp [renderPath]
  | .arr es, fullKey, _, _, _ => by
    rw [valueParts, segPairsV]
    exact arrParts_eq es 0 fullKey
  | .obj fs, fullKey, hwf, hne, hchars => by
    rw [valueParts, segPairsV]
    rw [wfV] at hwf
    simp only [Bool.and_eq_true] at hwf
    obtain ⟨⟨hnd, hany⟩, hwfF⟩ := hwf
    rw [encodeStripeParams, fieldsParts_eq fs fullKey hwfF hchars]
    apply splitOn_intercalate_filter
    intro l hl
    obtain ⟨p, hp, rfl⟩ := List.mem_map.mp hl
    refine ⟨by simp, ?_⟩
    intro hamp
    rcases List.mem_append.mp hamp with hc | hc
    · have hsafe := segPairsF_safe fs hwfF p hp
      exact (renderPath_chars p.1 fullKey hchars hsafe hne '&' hc).1 rfl
    · rcases List.mem_cons.mp hc with he | hc
      · exact absurd he (by decide)
      · exact (encodeURIComponent_no_delims p.2 '&' hc).1 rfl

end

/-! ### Parsing the rendered keys back -/

theorem takeWhile_key_sep (xs ys : Str) (sep : Char)
    (hxs : ∀ c ∈ xs, c ≠ sep) :
    (xs ++ sep :: ys).takeWhile (fun c => c != sep) = xs ∧
    (xs ++ sep :: ys).dropWhile (fun c => c != sep) = sep :: ys := by
  have hall : ∀ c ∈ xs, (fun c => c != sep) c = true := by
    intro c hc
    simpa [bne_iff_ne] using hxs c hc
  constructor
  · rw [List.takeWhile_append_of_pos hall, List.takeWhile_cons]
    simp
  · rw [List.dropWhile_append_of_pos hall, List.dropWhile_cons]
    simp

theorem parseBracketsF_cons (fuel : Nat) (rest rest₂ inner : Str)
    (hdrop : rest.dropWhile (fun c => c != ']') = ']' :: rest₂)
    (htake : rest.takeWhile (fun c => c != ']') = inner) :
    parseBracketsF (fuel + 1) ('[' :: rest) =
      (match parseBracketsF fuel rest₂ with
      | none => none
      | some segs =>
        if !inner.isEmpty && inner.all Char.isDigit then
          some (.idx (decDigitsVal inner) :: segs)
        else some (.field inner :: segs)) := by
  rw [parseBracketsF.eq_def]
  simp only []
  rw [hdrop, htake]
  rfl

theorem parseBracketsF_render (path : List Seg) : ∀ fuel, path.length ≤ fuel →
    (∀ s ∈ path, segSafe s = true) →
    parseBracketsF fuel (path.flatMap segRender) = some path := by
  induction path with
  | nil =>
    intro fuel _ _
    rw [List.flatMap_nil]
    cases fuel <;> rfl
  | cons s rest ih =>
    intro fuel hf hsafe
    obtain ⟨f, rfl⟩ : ∃ f, fuel = f + 1 := ⟨fuel - 1, by simp at hf; omega⟩
    have hih := ih f (by simp at hf; omega)
      (fun q hq => hsafe q (List.mem_cons_of_mem s hq))
    have hs := hsafe s (List.mem_cons_self s rest)
    rw [List.flatMap_cons]
    cases s with
    | field k =>
      obtain ⟨hkne, hkchars, hknd⟩ := safeKey_props k (by rwa [segSafe] at hs)
      rw [segRender]
      have hshape : ('[' :: (k ++ [']'])) ++ rest.flatMap segRender =
          '[' :: (k ++ ']' :: rest.flatMap segRender) := by simp
      rw [hshape]
      have hsplit := takeWhile_key_sep k (rest.flatMap segRender) ']'
        (fun c hc => (hkchars c hc).2.1)
      rw [parseBracketsF_cons f _ _ _ hsplit.2 hsplit.1]
      rw [hih]
      have hnd : (!k.isEmpty && k.all Char.isDigit) = false := by
        cases h : k.all Char.isDigit
        · simp
        · exact absurd (fun c hc => List.all_eq_true.mp h c hc) hknd
      simp [hnd]
    | idx n =>
      rw [segRender]
      have hshape : ('[' :: (natDigits n ++ [']'])) ++ rest.flatMap segRender =
          '[' :: (natDigits n ++ ']' :: rest.flatMap segRender) := by simp
      rw [hshape]
      have hdig := natDigits_digits n
      have hsplit := takeWhile_key_sep (natDigits n) (rest.flatMap segRender) ']'
        (fun c hc => (isDigit_ne_delims c (hdig c hc)).2.1)
      rw [parseBracketsF_cons f _ _ _ hsplit.2 hsplit.1]
      rw [hih]
      have hnd : (!(natDigits n).isEmpty && (natDigits n).all Char.isDigit) = true := by
        simp only [Bool.and_eq_true, Bool.not_eq_true', List.isEmpty_eq_false]
        exact ⟨natDigits_ne_nil n, List.all_eq_true.mpr hdig⟩
      simp [hnd, decDigitsVal_natDigits]

theorem flatMap_segRender_length (path : List Seg) :
    path.length ≤ (path.flatMap segRender).length := by
  induction path with
  | nil => simp
  | cons s rest ih =>
    rw [List.flatMap_cons, List.length_append, List.length_cons]
    have h1 : 1 ≤ (segRender s).length := by
      cases s <;> simp [segRender]
    omega

theorem parseBrackets_render (path : List Seg)
    (hsafe : ∀ s ∈ path, segSafe s = true) :
    parseBrackets (path.flatMap segRender) = some path :=
  parseBracketsF_render path _ (flatMap_segRender_length path) hsafe

theorem parseKey_render (k : Str) (path : List Seg) (hk : safeKey k = true)
    (hsafe : ∀ s ∈ path, segSafe s = true) :
    parseKey (k ++ path.flatMap segRender) = some (Seg.field k :: path) := by
  obtain ⟨hkne, hkchars, -⟩ := safeKey_props k hk
  have hkall : ∀ c ∈ k, (fun c => c != '[') c = true := by
    intro c hc
    simpa [bne_iff_ne] using (hkchars c hc).1
  have htail : (path.flatMap segRender).takeWhile (fun c => c != '[') = [] ∧
      (path.flatMap segRender).dropWhile (fun c => c != '[') =
        path.flatMap segRender := by
    cases path with
    | nil => simp
    | cons s rest =>
      obtain ⟨Z, hZ⟩ : ∃ Z, ((s :: rest).flatMap segRender) = '[' :: Z := by
        cases s <;> exact ⟨_, rfl⟩
      rw [hZ, List.takeWhile_cons, List.dropWhile_cons]
      simp
  rw [parseKey]
  rw [List.takeWhile_append_of_pos hkall, List.dropWhile_append_of_pos hkall,
    htail.1, htail.2, List.append_nil]
  rw [if_neg (by simpa [List.isEmpty_iff] using hkne)]
  rw [parseBrackets_render path hsafe]

theorem parsePair_part (k : Str) (path : List Seg) (val : Str)
    (hk : safeKey k = true) (hsafe : ∀ s ∈ path, segSafe s = true) :
    parsePair ((k ++ path.flatMap segRender) ++ '=' :: encodeURIComponent val) =
      some (Seg.field k :: path, val) := by
  obtain ⟨-, hkchars, -⟩ := safeKey_props k hk
  have hkeyeq : '=' ∉ k ++ path.flatMap segRender := by
    intro hc
    rcases List.mem_append.mp hc with hc | hc
    · exact (hkchars _ hc).2.2.2 rfl
    · obtain ⟨s, hsm, hcs⟩ := List.mem_flatMap.mp hc
      exact (segRender_chars s (hsafe s hsm) _ hcs).2 rfl
  have henceq : '=' ∉ encodeURIComponent val := by
    intro hc
    exact (encodeURIComponent_no_delims val _ hc).2 rfl
  rw [parsePair]
  rw [splitOn_sep_first '=' _ _ hkeyeq, splitOn_no_sep '=' _ henceq]
  simp only []
  rw [parseKey_render k path hk hsafe, decodeURIComponent_enc val]

theorem parsePairs_top (pairs : List (List Seg × Str))
    (hsafe : ∀ p ∈ pairs, ∀ s ∈ p.1, segSafe s = true)
    (hshape : ∀ p ∈ pairs, ∃ k t, p.1 = Seg.field k :: t) :
    parsePairs (pairs.map
      (fun p => renderPath [] p.1 ++ '=' :: encodeURIComponent p.2)) =
      some pairs := by
  induction pairs with
  | nil => rw [List.map_nil, parsePairs]
  | cons p rest ih =>
    rw [List.map_cons, parsePairs]
    obtain ⟨k, t, hkt⟩ := hshape p (List.mem_cons_self p rest)
    have hps := hsafe p (List.mem_cons_self p rest)
    have hkk : safeKey k = true := by
      have := hps (Seg.field k) (by rw [hkt]; exact List.mem_cons_self _ _)
      rwa [segSafe] at this
    have hts : ∀ s ∈ t, segSafe s = true := by
      intro s hsm
      exact hps s (by rw [hkt]; exact List.mem_cons_of_mem _ hsm)
    have hrp : renderPath [] p.1 = k ++ t.flatMap segRender := by
      rw [hkt, renderPath]
      rw [if_pos (by rfl)]
      exact renderPath_eq t k (safeKey_props k hkk).1
    rw [hrp, parsePair_part k t p.2 hkk hts]
    rw [ih (fun q hq => hsafe q (List.mem_cons_of_mem p hq))
      (fun q hq => hshape q (List.mem_cons_of_mem p hq))]
    simp only []
    rw [← hkt]

/-! ### Grouping the flattened pairs -/

theorem takeWhile_eq_nil_of_all {α : Type} (p : α → Bool) (l : List α)
    (h : ∀ x ∈ l, p x = false) : l.takeWhile p = [] := by
  cases l with
  | nil => rfl
  | cons a l =>
    rw [List.takeWhile_cons, h a (List.mem_cons_self a l)]
    simp

theorem dropWhile_eq_self_of_all {α : Type} (p : α → Bool) (l : List α)
    (h : ∀ x ∈ l, p x = false) : l.dropWhile p = l := by
  cases l with
  | nil => rfl
  | cons a l =>
    rw [List.dropWhile_cons, h a (List.mem_cons_self a l)]
    simp

theorem groupPairs_prepend (s : Seg) (ps rest : List (List Seg × Str))
    (hps : ps ≠ [])
    (hrest : ∀ q ∈ rest, q.1 ≠ [] ∧ q.1.headI ≠ s) :
    groupPairs (ps.map (fun p => (s :: p.1, p.2)) ++ rest) =
      (s, ps) :: groupPairs rest := by
  cases ps with
  | nil => exact absurd rfl hps
  | cons p ps₂ =>
    rw [List.map_cons]
    simp only [List.cons_append]
    rw [groupPairs]
    have hhead : (s :: p.1).headI = s := rfl
    have hall : ∀ q ∈ ps₂.map (fun p => ((s :: p.1 : List Seg), p.2)),
        (q.1.headI == (s :: p.1).headI) = true := by
      intro q hq
      obtain ⟨r, -, rfl⟩ := List.mem_map.mp hq
      simp
    have hfail : ∀ q ∈ rest, (q.1.headI == (s :: p.1).headI) = false := by
      intro q hq
      rw [hhead]
      simpa [beq_eq_false_iff_ne] using (hrest q hq).2
    rw [List.takeWhile_append_of_pos hall, List.dropWhile_append_of_pos hall,
      takeWhile_eq_nil_of_all _ rest hfail, dropWhile_eq_self_of_all _ rest hfail,
      List.append_nil]
    have hcomp : ((fun (q : List Seg × Str) => (q.1.tail, q.2)) ∘
        (fun (p : List Seg × Str) => (s :: p.1, p.2))) = id := by
      funext r
      rfl
    congr 1
    rw [hhead, List.map_cons, List.map_map, hcomp, List.map_id]
    rfl

theorem groupPairs_arr (es : List PValue) : ∀ i,
    groupPairs (segPairsArr es i) = elemGroups es i := by
  induction es with
  | nil => intro i; rw [segPairsArr, elemGroups, groupPairs]
  | cons v rest ih =>
    intro i
    rw [segPairsArr, elemGroups, groupPairs]
    have hfail : ∀ q ∈ segPairsArr rest (i + 1),
        (q.1.headI == ([Seg.idx i] : List Seg).headI) = false := by
      intro q hq
      obtain ⟨j, hij, hj⟩ := segPairsArr_shape rest (i + 1) q hq
      rw [hj]
      have : Seg.idx j ≠ Seg.idx i := by
        intro he
        cases he
        omega
      simpa [List.headI, beq_eq_false_iff_ne] using this
    rw [takeWhile_eq_nil_of_all _ _ hfail, dropWhile_eq_self_of_all _ _ hfail,
      ih (i + 1)]
    rfl

theorem idxSeq_elemGroups (es : List PValue) : ∀ i,
    idxSeq (elemGroups es i) i = true := by
  induction es with
  | nil => intro i; rw [elemGroups, idxSeq]
  | cons v rest ih =>
    intro i
    rw [elemGroups, idxSeq]
    simp only [beq_self_eq_true, Bool.true_and]
    exact ih (i + 1)

theorem segPairsF_all_null (fs : List (Str × PValue))
    (h : fs.any (fun p => !isNull p.2) = false) : segPairsF fs = [] := by
  induction fs with
  | nil => rw [segPairsF]
  | cons f rest ih =>
    obtain ⟨k, v⟩ := f
    simp only [List.any_cons, Bool.or_eq_false_iff] at h
    have hv : v = PValue.null := by
      have := h.1
      cases hv : isNull v
      · rw [hv] at this; exact absurd this (by decide)
      · exact (isNull_eq_true_iff v).mp hv
    rw [segPairsF, hv, segPairsV]
    simp only [List.map_nil, List.nil_append]
    exact ih (by simpa using h.2)

theorem cleanF_of_segPairsF_nil : ∀ (fs : List (Str × PValue)),
    wfF fs = true → segPairsF fs = [] → cleanF fs = []
  | [], _, _ => by rw [cleanF]
  | (k, v) :: rest, hwf, hnil => by
    rw [wfF] at hwf
    simp only [Bool.and_eq_true] at hwf
    rw [segPairsF] at hnil
    rcases List.append_eq_nil.mp hnil with ⟨h1, h2⟩
    have hvnull : v = PValue.null := by
      by_contra hne
      exact segPairsV_ne v hwf.1.2 hne (by simpa using h1)
    rw [cleanF, if_pos ((isNull_eq_true_iff v).mpr hvnull)]
    exact cleanF_of_segPairsF_nil rest hwf.2 h2

theorem groupPairs_fields : ∀ (fs : List (Str × PValue)), wfF fs = true →
    (fs.map Prod.fst).Nodup →
    groupPairs (segPairsF fs) = fieldGroups fs
  | [], _, _ => by rw [segPairsF, fieldGroups, groupPairs]
  | (k, v) :: rest, hwf, hnd => by
    rw [wfF] at hwf
    simp only [Bool.and_eq_true] at hwf
    have hndr : (rest.map Prod.fst).Nodup := by
      simp only [List.map_cons, List.nodup_cons] at hnd
      exact hnd.2
    have hknotin : k ∉ rest.map Prod.fst := by
      simp only [List.map_cons, List.nodup_cons] at hnd
      exact hnd.1
    rw [segPairsF, fieldGroups]
    by_cases hnull : isNull v = true
    · have hvnull : v = PValue.null := (isNull_eq_true_iff v).mp hnull
      rw [if_pos hnull, hvnull, segPairsV]
      simp only [List.map_nil, List.nil_append]
      exact groupPairs_fields rest hwf.2 hndr
    · rw [if_neg hnull]
      have hvne : v ≠ PValue.null := fun he => hnull ((isNull_eq_true_iff v).mpr he)
      rw [groupPairs_prepend (Seg.field k) (segPairsV v) (segPairsF rest)
        (segPairsV_ne v hwf.1.2 hvne) ?_]
      · rw [groupPairs_fields rest hwf.2 hndr]
      · intro q hq
        obtain ⟨k₂, hk₂, t, ht⟩ := segPairsF_heads rest q hq
        rw [ht]
        refine ⟨by simp, ?_⟩
        intro he
        simp only [List.headI] at he
        cases he
        exact hknotin hk₂

/-! ### Fuel bounds for the re-nesting -/

theorem pairsWeight_nil : pairsWeight [] = 0 := rfl

theorem pairsWeight_cons (p : List Seg × Str) (rest : List (List Seg × Str)) :
    pairsWeight (p :: rest) = p.1.length + 1 + pairsWeight rest := by
  simp [pairsWeight]

theorem pairsWeight_append (a b : List (List Seg × Str)) :
    pairsWeight (a ++ b) = pairsWeight a + pairsWeight b := by
  simp [pairsWeight]

theorem pairsWeight_map_prepend (s : Seg) (ps : List (List Seg × Str)) :
    pairsWeight (ps.map (fun p => (s :: p.1, p.2))) = pairsWeight ps + ps.length := by
  induction ps with
  | nil => rfl
  | cons p rest ih =>
    rw [List.map_cons, pairsWeight_cons, pairsWeight_cons, ih]
    simp only [List.length_cons]
    omega

theorem pairsWeight_arr (es : List PValue) : ∀ i,
    pairsWeight (segPairsArr es i) = 2 * es.length := by
  induction es with
  | nil => intro i; rw [segPairsArr, pairsWeight_nil]; rfl
  | cons v rest ih =>
    intro i
    rw [segPairsArr, pairsWeight_cons, ih (i + 1)]
    simp only [List.length_cons, List.length_nil]
    omega

theorem fuelNeedF_all_null (fs : List (Str × PValue))
    (h : fs.any (fun p => !isNull p.2) = false) : fuelNeedF fs = 0 := by
  induction fs with
  | nil => rw [fuelNeedF]
  | cons f rest ih =>
    obtain ⟨k, v⟩ := f
    simp only [List.any_cons, Bool.or_eq_false_iff] at h
    have hv : v = PValue.null := by
      have := h.1
      cases hv : isNull v
      · rw [hv] at this; exact absurd this (by decide)
      · exact (isNull_eq_true_iff v).mp hv
    rw [fuelNeedF, hv, fuelNeedV, ih (by simpa using h.2)]
    simp

mutual

theorem fuelNeedV_lt_weight : ∀ (v : PValue), wfV v = true → v ≠ PValue.null →
    fuelNeedV v + 1 ≤ pairsWeight (segPairsV v)
  | .str s, _, _ => by
    rw [segPairsV, fuelNeedV, pairsWeight_cons, pairsWeight_nil]
    simp
  | .null, _, hnn => absurd rfl hnn
  | .arr es, hwf, _ => by
    rw [wfV] at hwf
    simp only [Bool.and_eq_true, Bool.not_eq_true', List.isEmpty_eq_false] at hwf
    rw [segPairsV, fuelNeedV, pairsWeight_arr es 0]
    have : 1 ≤ es.length := List.length_pos.mpr hwf.1
    omega
  | .obj fs, hwf, _ => by
    rw [wfV] at hwf
    simp only [Bool.and_eq_true] at hwf
    rw [segPairsV, fuelNeedV]
    have := fuelNeedF_lt_weight fs hwf.2 hwf.1.2
    omega

theorem fuelNeedF_lt_weight : ∀ (fs : List (Str × PValue)), wfF fs = true →
    fs.any (fun p => !isNull p.2) = true →
    fuelNeedF fs + 2 ≤ pairsWeight (segPairsF fs)
  | [], _, hany => by simp at hany
  | (k, v) :: rest, hwf, hany => by
    rw [wfF] at hwf
    simp only [Bool.and_eq_true] at hwf
    rw [segPairsF, fuelNeedF, pairsWeight_append]
    by_cases hnull : isNull v = true
    · have hveq : v = PValue.null := (isNull_eq_true_iff v).mp hnull
      have hrany : rest.any (fun p => !isNull p.2) = true := by
        simp only [List.any_cons, Bool.or_eq_true] at hany
        rcases hany with h | h
        · rw [hnull] at h; exact absurd h (by decide)
        · exact h
      have ih := fuelNeedF_lt_weight rest hwf.2 hrany
      have hz : pairsWeight ((segPairsV v).map (fun p => (Seg.field k :: p.1, p.2))) = 0 := by
        rw [hveq, segPairsV]
        rfl
      rw [hveq, fuelNeedV]
      omega
    · have hvne : v ≠ PValue.null := fun he => hnull ((isNull_eq_true_iff v).mpr he)
      have h1 := fuelNeedV_lt_weight v hwf.1.2 hvne
      have hlen : 1 ≤ (segPairsV v).length :=
        List.length_pos.mpr (segPairsV_ne v hwf.1.2 hvne)
      rw [pairsWeight_map_prepend]
      by_cases hrany : rest.any (fun p => !isNull p.2) = true
      · have ih := fuelNeedF_lt_weight rest hwf.2 hrany
        rcases Nat.le_total (fuelNeedV v) (fuelNeedF rest) with hm | hm
        · rw [Nat.max_eq_right hm]
          omega
        · rw [Nat.max_eq_left hm]
          omega
      · have h0 : fuelNeedF rest = 0 :=
          fuelNeedF_all_null rest (by simpa using hrany)
        rw [h0, Nat.max_eq_left (Nat.zero_le _)]
        omega

end

/-! ### Re-nesting the structured pairs -/

theorem jsToString_str (s : Str) : jsToString (.str s) = s := by rw [jsToString]

theorem renestValueF_scalar (fuel : Nat) (v : Str) :
    renestValueF (fuel + 1) [([], v)] = some (.str v) := by
  rw [renestValueF]
  rfl

theorem fieldGroups_all_field (fs : List (Str × PValue)) :
    (fieldGroups fs).all
      (fun g => match g.1 with | .field _ => true | .idx _ => false) = true := by
  induction fs with
  | nil => rw [fieldGroups]; rfl
  | cons f rest ih =>
    obtain ⟨k, v⟩ := f
    rw [fieldGroups]
    by_cases hnull : isNull v = true
    · rw [if_pos hnull]; exact ih
    · rw [if_neg hnull, List.all_cons, ih]; rfl

theorem elemGroups_not_all_field (es : List PValue) (i : Nat) (h : es ≠ []) :
    (elemGroups es i).all
      (fun g => match g.1 with | .field _ => true | .idx _ => false) = false := by
  cases es with
  | nil => exact absurd rfl h
  | cons v rest =>
    rw [elemGroups, List.all_cons]
    rfl

theorem renestElemsF_scalars (es : List PValue) : ∀ (i fuel : Nat),
    es.all (fun e => match e with | .str _ => true | _ => false) = true →
    renestElemsF (fuel + 1) (elemGroups es i) = some es := by
  induction es with
  | nil => intro i fuel _; rw [elemGroups, renestElemsF]
  | cons v rest ih =>
    intro i fuel hall
    simp only [List.all_cons, Bool.and_eq_true] at hall
    obtain ⟨s, rfl⟩ : ∃ s, v = .str s := by
      cases v with
      | str s => exact ⟨s, rfl⟩
      | null => exact absurd hall.1 (by simp)
      | arr es => exact absurd hall.1 (by simp)
      | obj fs => exact absurd hall.1 (by simp)
    rw [elemGroups, renestElemsF]
    simp only [jsToString_str]
    rw [renestValueF_scalar fuel s, ih (i + 1) fuel hall.2]

mutual

theorem renest_segPairsV : ∀ (v : PValue), wfV v = true → v ≠ PValue.null →
    ∀ fuel, fuelNeedV v < fuel →
    renestValueF fuel (segPairsV v) = some (cleanV v)
  | .str s, _, _, fuel, hf => by
    obtain ⟨f, rfl⟩ : ∃ f, fuel = f + 1 := ⟨fuel - 1, by omega⟩
    rw [segPairsV, cleanV]
    exact renestValueF_scalar f s
  | .null, _, hnn, _, _ => absurd rfl hnn
  | .arr es, hwf, _, fuel, hf => by
    rw [wfV] at hwf
    simp only [Bool.and_eq_true, Bool.not_eq_true', List.isEmpty_eq_false] at hwf
    obtain ⟨hne, hscal⟩ := hwf
    rw [fuelNeedV] at hf
    obtain ⟨f, rfl⟩ : ∃ f, fuel = f + 2 := ⟨fuel - 2, by omega⟩
    rw [segPairsV, cleanV]
    cases es with
    | nil => exact absurd rfl hne
    | cons e es₂ =>
      have hpe : segPairsArr (e :: es₂) 0 =
          ([Seg.idx 0], jsToString e) :: segPairsArr es₂ 1 := by
        rw [segPairsArr]
      rw [hpe, renestValueF]
      have hallne : (segPairsArr es₂ 1).all (fun p => !p.1.isEmpty) = true := by
        rw [List.all_eq_true]
        intro q hq
        obtain ⟨j, -, hj⟩ := segPairsArr_shape es₂ 1 q hq
        rw [hj]
        rfl
      rw [hallne, if_pos rfl]
      rw [← hpe, groupPairs_arr (e :: es₂) 0]
      rw [elemGroups_not_all_field (e :: es₂) 0 (by simp)]
      rw [if_neg (by simp)]
      rw [idxSeq_elemGroups (e :: es₂) 0, if_pos rfl]
      rw [renestElemsF_scalars (e :: es₂) 0 f hscal]
      rfl
  | .obj fs, hwf, _, fuel, hf => by
    rw [wfV] at hwf
    simp only [Bool.and_eq_true] at hwf
    obtain ⟨⟨hnd, hany⟩, hwfF⟩ := hwf
    rw [fuelNeedV] at hf
    obtain ⟨f, rfl⟩ : ∃ f, fuel = f + 1 := ⟨fuel - 1, by omega⟩
    rw [segPairsV, cleanV]
    have hne : segPairsF fs ≠ [] := segPairsF_ne fs hwfF hany
    cases hp : segPairsF fs with
    | nil => exact absurd hp hne
    | cons q qrest =>
      obtain ⟨qp, qv⟩ := q
      obtain ⟨k, -, t, ht⟩ := segPairsF_heads fs (qp, qv)
        (by rw [hp]; exact List.mem_cons_self _ _)
      have ht₂ : qp = Seg.field k :: t := ht
      subst ht₂
      rw [renestValueF]
      have hallne : qrest.all (fun p => !p.1.isEmpty) = true := by
        rw [List.all_eq_true]
        intro q₂ hq₂
        obtain ⟨k₂, -, t₂, ht₂⟩ := segPairsF_heads fs q₂
          (by rw [hp]; exact List.mem_cons_of_mem _ hq₂)
        rw [ht₂]
        rfl
      rw [hallne, if_pos rfl]
      rw [← hp, groupPairs_fields fs hwfF (of_decide_eq_true hnd)]
      rw [fieldGroups_all_field fs, if_pos rfl]
      rw [renest_fieldGroups fs hwfF f (by omega)]
      rfl

theorem renest_fieldGroups : ∀ (fs : List (Str × PValue)), wfF fs = true →
    ∀ fuel, fuelNeedF fs < fuel →
    renestFieldsF fuel (fieldGroups fs) = some (cleanF fs)
  | [], _, fuel, _ => by rw [fieldGroups, cleanF, renestFieldsF]
  | (k, v) :: rest, hwf, fuel, hf => by
    rw [wfF] at hwf
    simp only [Bool.and_eq_true] at hwf
    rw [fuelNeedF] at hf
    have hfr : fuelNeedF rest < fuel :=
      lt_of_le_of_lt (le_max_right _ _) hf
    rw [fieldGroups, cleanF]
    by_cases hnull : isNull v = true
    · rw [if_pos hnull, if_pos hnull]
      exact renest_fieldGroups rest hwf.2 fuel hfr
    · rw [if_neg hnull, if_neg hnull]
      rw [renestFieldsF]
      have hvne : v ≠ PValue.null := fun he => hnull ((isNull_eq_true_iff v).mpr he)
      rw [renest_segPairsV v hwf.1.2 hvne fuel
        (lt_of_le_of_lt (le_max_left _ _) hf)]
      rw [renest_fieldGroups rest hwf.2 fuel hfr]

end


/-! ### Claim theorems -/

/-- C1 (code evidence): the header parser collapses duplicate keys, so with
two `v1` values of which only the first equals the computed signature, the
collected set is just the last value and verification rejects with a
signature mismatch — although the claimed behaviour is success.  `hmacConst`
plays the HMAC collaborator, returning `aaaa` for the signed payload
`5.payload`. -/
theorem verify_first_v1_match_rejected :
    hmacConst "aaaa".data "sec".data ("5".data ++ '.' :: "payload".data) = "aaaa".data ∧
    sigValues (parseSigHeader "t=5,v1=aaaa,v1=ffff".data) = [some "ffff".data] ∧
    verifyStripeSignature (hmacConst "aaaa".data) 5 "payload".data
      (some "t=5,v1=aaaa,v1=ffff".data) "sec".data = .error .signatureMismatch := by
  refine ⟨rfl, by decide, by rfl⟩

/-- C2: a header `t=<ts>,v1=<sig>` carrying the correctly computed signature
`sig = hmacHex secret "<ts>.<payload>"` verifies successfully whenever the
timestamp parses to a value within the 300-second tolerance of `now` and the
timestamp/signature strings are free of the header separators (true of
decimal timestamps and hex signatures). -/
theorem verify_correct_header_ok (hmacHex : Str → Str → Str) (now T : Int)
    (payload secret ts : Str)
    (hts : jsParseInt ts = some T) (htsne : ts ≠ [])
    (htsc : ',' ∉ ts) (htse : '=' ∉ ts)
    (hsc : ',' ∉ hmacHex secret (ts ++ '.' :: payload))
    (hse : '=' ∉ hmacHex secret (ts ++ '.' :: payload))
    (htol : (now - T).natAbs ≤ 300) :
    verifyStripeSignature hmacHex now payload
      (some ("t=".data ++ ts ++ ",v1=".data ++ hmacHex secret (ts ++ '.' :: payload)))
      secret = .ok () := by
  have hp := parseSigHeader_two ts (hmacHex secret (ts ++ '.' :: payload)) htsc htse hsc hse
  have hstale : staleCheck now ts = false := by
    simp only [staleCheck, hts]
    simpa using htol
  simp only [verifyStripeSignature]
  rw [hp]
  simp [jsGet, sigValues, jsTruthyO, jsTruthy, hstale, htsne, List.isEmpty_iff,
    String.data]

/-- Witness for `verify_correct_header_ok` at a concrete input. -/
theorem verify_correct_header_ok_witness :
    verifyStripeSignature (hmacConst "ab".data) 5 "p".data
      (some ("t=".data ++ "5".data ++ ",v1=".data ++
        hmacConst "ab".data "s".data ("5".data ++ '.' :: "p".data)))
      "s".data = .ok () :=
  verify_correct_header_ok (hmacConst "ab".data) 5 5 "p".data "s".data "5".data
    (by decide) (by decide) (by decide) (by decide) (by decide) (by decide) (by decide)

/-- C10: when the timestamp value of the header is present but not parseable
as an integer, `parseInt` yields `NaN`, the `>` comparison against `NaN` is
false, so the stale-timestamp branch never fires and verification proceeds
directly to the HMAC comparison with the literal timestamp string in the
signed payload. -/
theorem verify_nan_timestamp_skips_tolerance (hmacHex : Str → Str → Str)
    (now : Int) (payload secret h ts : Str)
    (hne : h ≠ [])
    (hts : jsGet (parseSigHeader h) "t".data = some ts)
    (htsne : ts ≠ [])
    (hnan : jsParseInt ts = none)
    (hsigs : sigValues (parseSigHeader h) ≠ []) :
    verifyStripeSignature hmacHex now payload (some h) secret =
      (if some (hmacHex secret (ts ++ '.' :: payload)) ∈ sigValues (parseSigHeader h)
       then .ok () else .error .signatureMismatch) := by
  have hstale : staleCheck now ts = false := by simp [staleCheck, hnan]
  simp [verifyStripeSignature, jsTruthy, hts, jsTruthyO, hstale, List.isEmpty_iff,
    htsne, hsigs, hne]

/-- Witness for `verify_nan_timestamp_skips_tolerance` at a concrete input. -/
theorem verify_nan_timestamp_skips_tolerance_witness :
    verifyStripeSignature (hmacConst "zz".data) 0 "p".data
      (some "t=abc,v1=zz".data) "s".data =
      (if some (hmacConst "zz".data "s".data ("abc".data ++ '.' :: "p".data)) ∈
          sigValues (parseSigHeader "t=abc,v1=zz".data)
       then .ok () else .error .signatureMismatch) :=
  verify_nan_timestamp_skips_tolerance (hmacConst "zz".data) 0 "p".data "s".data
    "t=abc,v1=zz".data "abc".data (by decide) (by decide) (by decide) (by decide)
    (by decide)

/-- C3: with the webhook secret configured, a request whose signature
verification fails is answered with a 400, the body is never JSON-parsed, no
event-switch side effect runs and no acknowledgement is emitted; and an
acknowledgement is emitted only when verification and JSON parsing both
succeed. -/
theorem webhook_never_partially_acknowledges (hmacHex : Str → Str → Str)
    (now : Int) (parseJson : Str → Option StripeEvent) (secret : Str)
    (sig : Option Str) (body : Str) (hsec : secret ≠ []) :
    ((∃ e, verifyStripeSignature hmacHex now body sig secret = .error e) →
      handleWebhook hmacHex now parseJson secret sig body =
        { status := 400, acknowledged := false, parseAttempted := false,
          effects := [] }) ∧
    ((handleWebhook hmacHex now parseJson secret sig body).acknowledged = true →
      verifyStripeSignature hmacHex now body sig secret = .ok () ∧
      ∃ ev, parseJson body = some ev) := by
  have htr : jsTruthy secret = true := by
    simp [jsTruthy, List.isEmpty_iff, hsec]
  constructor
  · rintro ⟨e, he⟩
    simp [handleWebhook, htr, he]
  · intro hack
    simp only [handleWebhook, htr, if_true] at hack
    cases hv : verifyStripeSignature hmacHex now body sig secret with
    | error e =>
      rw [hv] at hack
      simp at hack
    | ok u =>
      rw [hv] at hack
      refine ⟨by cases u; rfl, ?_⟩
      simp only [webhookParse] at hack
      cases hpj : parseJson body with
      | none => rw [hpj] at hack; simp at hack
      | some ev => exact ⟨ev, rfl⟩

/-- Witness for `webhook_never_partially_acknowledges`: a missing signature
header with the secret configured yields the 400 with no parse, no effects
and no acknowledgement. -/
theorem webhook_never_partially_acknowledges_witness :
    handleWebhook (hmacConst "aa".data) 0 (fun _ => none) "whsec".data none
      "{}".data =
      { status := 400, acknowledged := false, parseAttempted := false,
        effects := [] } :=
  (webhook_never_partially_acknowledges (hmacConst "aa".data) 0 (fun _ => none)
      "whsec".data none "{}".data (by decide)).1
    ⟨.missingHeader, by rfl⟩

/-- C9: when the webhook secret binding is empty while the main key is set,
POST /webhook is still routed to the handler, and the handler performs no
verification at all: any valid-JSON body is dispatched and acknowledged with
`{received: true}`, for any signature header whatsoever. -/
theorem webhook_no_verification_without_secret (hmacHex : Str → Str → Str)
    (now : Int) (parseJson : Str → Option StripeEvent) (sig : Option Str)
    (body : Str) (ev : StripeEvent) (env : StripeEnv)
    (hsk : env.secretKey ≠ []) (hws : env.webhookSecret = [])
    (hpj : parseJson body = some ev) :
    stripeFetch "POST".data "/webhook".data env = .webhook ∧
    handleWebhook hmacHex now parseJson env.webhookSecret sig body =
      { status := 200, acknowledged := true, parseAttempted := true,
        effects := dispatchEvent ev } := by
  constructor
  · simp [stripeFetch, jsTruthy, List.isEmpty_iff, hsk, String.data]
  · simp [handleWebhook, hws, jsTruthy, webhookParse, hpj]

/-- Witness for `webhook_no_verification_without_secret`: a wrong header and
an empty webhook secret still acknowledge. -/
theorem webhook_no_verification_without_secret_witness :
    stripeFetch "POST".data "/webhook".data envDemo = .webhook ∧
    handleWebhook (hmacConst "aa".data) 0 (fun _ => some evDemo)
      envDemo.webhookSecret (some "t=1,v1=wrong".data) "{}".data =
      { status := 200, acknowledged := true, parseAttempted := true,
        effects := dispatchEvent evDemo } :=
  webhook_no_verification_without_secret (hmacConst "aa".data) 0
    (fun _ => some evDemo) (some "t=1,v1=wrong".data) "{}".data evDemo envDemo
    (by decide) rfl rfl

/-- C7: a checkout body whose price identifier is absent (or falsy) is
answered with a 400 and no outbound `stripeRequest` call is issued. -/
theorem checkout_missing_price_no_outbound (req : CheckoutBody)
    (origin : Option Str) (env : StripeEnv)
    (h : jsTruthyO req.price_id = false) :
    handleCheckout req origin env = { status := 400, stripeCalls := [] } := by
  simp [handleCheckout, h]

/-- Witness for `checkout_missing_price_no_outbound`: the empty body. -/
theorem checkout_missing_price_no_outbound_witness :
    handleCheckout
      { price_id := none, success_url := none, cancel_url := none,
        customer_email := none, metadata := [] } none
      { secretKey := "sk".data, webhookSecret := [], allowedOrigin := [] } =
      { status := 400, stripeCalls := [] } :=
  checkout_missing_price_no_outbound _ none _ (by decide)

/-- C8: the prices handler keeps exactly the entries with a live (present,
non-deleted) parent product, maps them to the reduced view, and returns them
sorted ascending by amount with a missing amount treated as 0. -/
theorem prices_filtered_mapped_sorted (raw : List RawPrice) :
    List.Perm (handlePrices raw)
      ((raw.filter (fun p =>
        match p.product with
        | none => false
        | some prod => !prod.deleted)).map toPriceView) ∧
    (handlePrices raw).Pairwise
      (fun a b => a.amount.getD 0 ≤ b.amount.getD 0) := by
  constructor
  · exact List.mergeSort_perm _ _
  · have hs := @List.sorted_mergeSort PriceView
      (fun a b : PriceView => decide (priceKey a ≤ priceKey b))
      (fun a b c hab hbc => by
        simp only [decide_eq_true_eq] at *
        omega)
      (fun a b => by
        simp only [Bool.or_eq_true, decide_eq_true_eq]
        exact Int.le_total _ _)
      ((raw.filter keepPrice).map toPriceView)
    exact hs.imp (fun h => by simpa [priceKey] using h)

/-- C6 counterexample: the pair (POST, /health) is not one of the five table
routes, yet the dispatcher answers it with the health response, not the
404. -/
theorem stripe_post_health_not_404 :
    ("POST".data, "/health".data) ∉
      [("GET".data, "/health".data), ("POST".data, "/checkout".data),
       ("POST".data, "/portal".data), ("POST".data, "/webhook".data),
       ("GET".data, "/prices".data)] ∧
    stripeFetch "POST".data "/health".data
      { secretKey := "sk".data, webhookSecret := [], allowedOrigin := [] } =
      .health ∧
    stripeFetch "POST".data "/health".data
      { secretKey := "sk".data, webhookSecret := [], allowedOrigin := [] } ≠
      .notFound stripeRoutes := by
  exact ⟨by decide, by rfl, by decide⟩

/-- C6 amended: `/health` answers under any method; for every other
configured non-preflight request whose (method, path) matches none of
POST /checkout, POST /portal, POST /webhook, GET /prices, the response is
the 404 listing the five valid routes. -/
theorem stripe_unrouted_is_404 (method path : Str) (env : StripeEnv)
    (hm : method ≠ "OPTIONS".data) (hk : env.secretKey ≠ [])
    (hh : path ≠ "/health".data)
    (hc : ¬(method = "POST".data ∧ path = "/checkout".data))
    (hp : ¬(method = "POST".data ∧ path = "/portal".data))
    (hw : ¬(method = "POST".data ∧ path = "/webhook".data))
    (hpr : ¬(method = "GET".data ∧ path = "/prices".data)) :
    stripeFetch method path env = .notFound stripeRoutes := by
  simp [stripeFetch, hm, hh, hc, hp, hw, hpr, jsTruthy, List.isEmpty_iff, hk]

/-- Witness for `stripe_unrouted_is_404`. -/
theorem stripe_unrouted_is_404_witness :
    stripeFetch "DELETE".data "/nope".data
      { secretKey := "sk".data, webhookSecret := [], allowedOrigin := [] } =
      .notFound stripeRoutes :=
  stripe_unrouted_is_404 "DELETE".data "/nope".data _ (by decide) (by decide)
    (by decide) (by decide) (by decide) (by decide) (by decide)

/-- C5 counterexample: for provider `ollama` and a transport failure with
message `boom`, the 502 payload is `{error: "boom", backend:
"http://127.0.0.1:11434"}` — the provider name appears nowhere in it. -/
theorem gateway_502_payload_lacks_provider :
    gatewayFetch (fun _ => (.error "boom".data : Except Str Unit))
      { anthropicKey := [], openaiKey := [] }
      { provider := some "ollama".data, pathname := "/api".data, search := [],
        method := "POST".data, headers := [] } =
      .badGateway "boom".data "http://127.0.0.1:11434".data ∧
    ¬ ("ollama".data <:+: ("boom".data ++ "http://127.0.0.1:11434".data)) := by
  exact ⟨by rfl, by decide⟩

/-- C5 amended: a recognized provider whose upstream fetch raises a
transport failure yields the Bad-Gateway payload carrying the failure
message and the matched backend origin (not the provider name). -/
theorem gateway_upstream_failure_502 {ρ : Type}
    (doFetch : ProxiedRequest → Except Str ρ) (env : GatewayEnv)
    (req : GatewayRequest) (backend msg : Str)
    (hb : backendFor (jsOr req.provider "ollama".data) = some backend)
    (hf : ∀ pr, doFetch pr = .error msg) :
    gatewayFetch doFetch env req = .badGateway msg backend := by
  simp [gatewayFetch, hb, hf]

/-- C4 counterexample: the acyclic tree `\x7ba: \x7b\x7d\x7d` contains no
null leaves, yet flattening it produces the empty wire (an empty nested
object contributes no parts) and re-nesting the empty wire yields the empty
top object — the field `a` is lost, so flatten-then-renest is not the
identity on every acyclic tree even after dropping null leaves. -/
theorem flatten_renest_empty_object_lost :
    renestWire (encodeStripeParams treeEmptyObj []) = some [] ∧
      cleanF treeEmptyObj = treeEmptyObj ∧ treeEmptyObj ≠ [] := by
  have h1 : encodeStripeParams treeEmptyObj [] = [] := by
    simp [treeEmptyObj, encodeStripeParams, fieldsParts, valueParts,
      List.intercalate]
  refine ⟨?_, by simp [treeEmptyObj, cleanF, cleanV, isNull],
    by simp [treeEmptyObj]⟩
  rw [h1]
  simp [renestWire, parsePairs, renestValueF, List.splitOn, List.splitOnP,
    List.splitOnP.go, pairsWeight]

/-- C4 amended: for every parameter tree whose keys (at every level) are
pairwise distinct, nonempty, free of the delimiters `[ ] & =` and not made
of digits only, whose arrays are nonempty and hold only non-null scalar
leaves, and whose nested objects keep at least one non-null field,
flattening into bracketed key/value wire pairs and then re-nesting the
pairs reproduces the original tree after dropping its null leaves. -/
theorem flatten_renest_roundtrip (fields : List (Str × PValue))
    (hwf : wfTop fields = true) :
    renestWire (encodeStripeParams fields []) = some (cleanF fields) := by
  rw [wfTop] at hwf
  simp only [Bool.and_eq_true, decide_eq_true_eq] at hwf
  obtain ⟨hnd, hwfF⟩ := hwf
  have hsafe := segPairsF_safe fields hwfF
  have hshape : ∀ p ∈ segPairsF fields, ∃ k t, p.1 = Seg.field k :: t := by
    intro p hp
    obtain ⟨k, -, t, ht⟩ := segPairsF_heads fields p hp
    exact ⟨k, t, ht⟩
  have hparts : ∀ l ∈ (segPairsF fields).map
      (fun p => renderPath [] p.1 ++ '=' :: encodeURIComponent p.2),
      l ≠ [] ∧ '&' ∉ l := by
    intro l hl
    obtain ⟨p, hp, rfl⟩ := List.mem_map.mp hl
    obtain ⟨k, t, ht⟩ := hshape p hp
    have hps := hsafe p hp
    have hkk : safeKey k = true := by
      have := hps (Seg.field k) (by rw [ht]; exact List.mem_cons_self _ _)
      rwa [segSafe] at this
    have hrp : renderPath [] p.1 = k ++ t.flatMap segRender := by
      rw [ht, renderPath]
      rw [if_pos (by rfl)]
      exact renderPath_eq t k (safeKey_props k hkk).1
    constructor
    · simp
    · rw [hrp]
      intro hamp
      rcases List.mem_append.mp hamp with hc | hc
      · rcases List.mem_append.mp hc with hc | hc
        · exact ((safeKey_props k hkk).2.1 '&' hc).2.2.1 rfl
        · obtain ⟨s, hsm, hcs⟩ := List.mem_flatMap.mp hc
          have hss := hps s (by rw [ht]; exact List.mem_cons_of_mem _ hsm)
          exact (segRender_chars s hss '&' hcs).1 rfl
      · rcases List.mem_cons.mp hc with he | hc
        · exact absurd he (by decide)
        · exact (encodeURIComponent_no_delims p.2 '&' hc).1 rfl
  rw [encodeStripeParams,
    fieldsParts_eq fields [] hwfF (by intro c hc; cases hc),
    renestWire,
    splitOn_intercalate_filter ((segPairsF fields).map
      (fun p => renderPath [] p.1 ++ '=' :: encodeURIComponent p.2)) hparts,
    parsePairs_top (segPairsF fields) hsafe hshape]
  simp only []
  by_cases hany : fields.any (fun p => !isNull p.2) = true
  · have hwfo : wfV (.obj fields) = true := by
      rw [wfV]
      simp only [Bool.and_eq_true, decide_eq_true_eq]
      exact ⟨⟨hnd, hany⟩, hwfF⟩
    have hfuel : fuelNeedV (.obj fields) < pairsWeight (segPairsF fields) + 1 := by
      have := fuelNeedF_lt_weight fields hwfF hany
      rw [fuelNeedV]
      omega
    have hmain := renest_segPairsV (.obj fields) hwfo
      (fun h => PValue.noConfusion h) (pairsWeight (segPairsF fields) + 1) hfuel
    rw [segPairsV, cleanV] at hmain
    rw [hmain]
  · have hpn : segPairsF fields = [] :=
      segPairsF_all_null fields (Bool.eq_false_iff.mpr hany)
    have hclean : cleanF fields = [] := cleanF_of_segPairsF_nil fields hwfF hpn
    rw [hpn, hclean]
    simp [pairsWeight, renestValueF]

/-- Witness for C4: the round trip at a concrete well-formed tree with a
percent-encoded scalar, a nested object carrying a null field, and an
array. -/
theorem flatten_renest_roundtrip_witness :
    renestWire (encodeStripeParams treeDemo []) = some (cleanF treeDemo) :=
  flatten_renest_roundtrip treeDemo (by
    simp [treeDemo, wfTop, wfF, wfV, safeKey, isNull])

/-- Witness for `gateway_upstream_failure_502`. -/
theorem gateway_upstream_failure_502_witness :
    gatewayFetch (fun _ => (.error "down".data : Except Str Unit))
      { anthropicKey := [], openaiKey := [] }
      { provider := some "claude".data, pathname := "/v1".data, search := [],
        method := "POST".data, headers := [] } =
      .badGateway "down".data "https://api.anthropic.com".data :=
  gateway_upstream_failure_502 _ _ _ "https://api.anthropic.com".data
    "down".data (by decide) (fun _ => rfl)

end Edge
